import Mathlib

/-!
Verification development for a chess repertoire trainer backend.

The development shallowly embeds the two core modules of the repository:
`repertoire.py` (the repertoire tree builder) and `analyzer.py` (the
deviation analyzer).  Python dicts keyed by move strings are modelled as
insertion-ordered association lists; the external chess library
(`python-chess`) is treated as a black box: parsed study chapters arrive
as move trees whose edges already carry the SAN string
`node.board().san(variation.move)`, and board reconstruction is an
abstract `BoardApi` whose `pushSan` may fail (modelling `ValueError`).
Fallible code paths return `Except`: an uncaught Python `KeyError`
becomes an `.error` value.
-/

/-- Association-list lookup: models Python `d.get(k)` / `k in d` for a
string-keyed dict (first matching key wins; keys are unique in dicts). -/
def lookupAL {α : Type} : List (String × α) → String → Option α
  | [], _ => none
  | (k', v) :: rest, k => if k' = k then some v else lookupAL rest k

/-- Association-list insert: models Python `d[k] = v` — replaces the value
in place when the key exists, otherwise appends at the end (dicts keep
insertion order). -/
def insertAL {α : Type} : List (String × α) → String → α → List (String × α)
  | [], k, v => [(k, v)]
  | (k', v') :: rest, k, v =>
      if k' = k then (k, v) :: rest else (k', v') :: insertAL rest k v

/-- A node in the repertoire tree (`RepertoireNode` dataclass in
`repertoire.py`): children dict, optional opening/study labels, and the
`is_your_turn` flag (default `False`). -/
inductive RepertoireNode : Type where
  | mk : List (String × RepertoireNode) → Option String → Option String →
      Bool → RepertoireNode

def RepertoireNode.children : RepertoireNode → List (String × RepertoireNode)
  | .mk c _ _ _ => c

def RepertoireNode.opening_name : RepertoireNode → Option String
  | .mk _ o _ _ => o

def RepertoireNode.study_name : RepertoireNode → Option String
  | .mk _ _ s _ => s

def RepertoireNode.is_your_turn : RepertoireNode → Bool
  | .mk _ _ _ b => b

/-- The default-constructed `RepertoireNode()`. -/
def emptyNode : RepertoireNode := .mk [] none none false

/-- The complete repertoire (`Repertoire` dataclass): two trees plus the
FEN position index mapping fingerprint to
`(opening_name, study_name, variation_count)`.  The stored study name may
be `None` in the source (the tuple annotation notwithstanding), so the
second component is optional. -/
structure Repertoire : Type where
  white_tree : RepertoireNode
  black_tree : RepertoireNode
  position_index : List (String × (String × Option String × Nat))

def emptyRepertoire : Repertoire := ⟨emptyNode, emptyNode, []⟩

/-- `Repertoire.get_tree`: white tree when the colour is White
(`chess.WHITE` is `True`), else the black tree. -/
def Repertoire.get_tree (r : Repertoire) (color : Bool) : RepertoireNode :=
  if color then r.white_tree else r.black_tree

/-- A parsed study chapter as delivered by the external PGN parser
(`chess.pgn.read_game`): a tree of moves where each variation edge
carries the SAN string `node.board().san(variation.move)` computed by the
external chess library. -/
inductive GameNode : Type where
  | mk : List (String × GameNode) → GameNode

def GameNode.variations : GameNode → List (String × GameNode)
  | .mk v => v

mutual

/-- `RepertoireBuilder._process_node`: recursively process a game node and
its variations, inserting each variation move into both trees (creating
fresh children with `is_your_turn = (turn == chess.WHITE)` for the white
tree and `(turn == chess.BLACK)` for the black tree), overwriting the
child labels, and recursing with the opposite turn. -/
def process_node (wt bt : RepertoireNode) (turn : Bool)
    (opening_name study_name : String) (node : GameNode) :
    RepertoireNode × RepertoireNode :=
  match node with
  | .mk vars => process_vars wt bt turn opening_name study_name vars
termination_by sizeOf node
decreasing_by all_goals (simp_wf <;> omega)

/-- The `for variation in node.variations` loop of `_process_node`. -/
def process_vars (wt bt : RepertoireNode) (turn : Bool)
    (opening_name study_name : String) (l : List (String × GameNode)) :
    RepertoireNode × RepertoireNode :=
  match l with
  | [] => (wt, bt)
  | (move_san, variation) :: rest =>
      let wc0 : RepertoireNode :=
        match lookupAL wt.children move_san with
        | some c => c
        | none => .mk [] (some opening_name) (some study_name) turn
      let wc1 : RepertoireNode :=
        .mk wc0.children (some opening_name) (some study_name) wc0.is_your_turn
      let bc0 : RepertoireNode :=
        match lookupAL bt.children move_san with
        | some c => c
        | none => .mk [] (some opening_name) (some study_name) (!turn)
      let bc1 : RepertoireNode :=
        .mk bc0.children (some opening_name) (some study_name) bc0.is_your_turn
      let p := process_node wc1 bc1 (!turn) opening_name study_name variation
      let wt' : RepertoireNode :=
        .mk (insertAL wt.children move_san p.1) wt.opening_name wt.study_name
          wt.is_your_turn
      let bt' : RepertoireNode :=
        .mk (insertAL bt.children move_san p.2) bt.opening_name bt.study_name
          bt.is_your_turn
      process_vars wt' bt' turn opening_name study_name rest
termination_by sizeOf l
decreasing_by all_goals (simp_wf <;> omega)

end

/-- Python `str.lower()`, modelled character-wise (the usernames compared
in `analyze_game` are ASCII identifiers). -/
def pyLower (s : String) : String := ⟨s.data.map Char.toLower⟩

/-- Python `c in s` for a single-character needle. -/
def containsChar (s : String) (c : Char) : Bool := s.data.contains c

/-- Python `s.replace(a, b)` for single characters (the only use in the
source is `fen.replace(' ', '_')`). -/
def replaceChar (s : String) (a b : Char) : String :=
  ⟨s.data.map (fun c => if c = a then b else c)⟩

/-- Python `s.split(sep, 1)[1]` for a single-character separator: the text
after the first occurrence. -/
def afterFirst (s : String) (c : Char) : String :=
  ⟨(s.data.dropWhile (fun x => !(x == c))).drop 1⟩

/-- Python `s.strip()`: remove leading and trailing whitespace. -/
def pyStrip (s : String) : String :=
  ⟨((s.data.dropWhile Char.isWhitespace).reverse.dropWhile
    Char.isWhitespace).reverse⟩

/-- Python's `a or b` for strings with `a` optional: `None` and `""` are
falsy, anything else is truthy. -/
def pyOrStr (o : Option String) (d : String) : String :=
  match o with
  | some s => if s = "" then d else s
  | none => d

/-- A parsed study chapter: the optional `Event` / `Site` PGN headers and
the root of the chapter's move tree.  A header that is absent, or present
with empty value, is falsy for the `or`-chain in `_process_study`. -/
structure Chapter : Type where
  event : Option String
  site : Option String
  root : GameNode

/-- The chapter-label derivation of `RepertoireBuilder._process_study`:
`chapter_name = headers.get("Event") or headers.get("Site") or study_name`,
then if a `":"` occurs, keep `split(":", 1)[1].strip()`, and finally
compose `f"{study_name} - {chapter_name}"`. -/
def chapterLabel (study_name : String) (ch : Chapter) : String :=
  let chapter_name := pyOrStr ch.event (pyOrStr ch.site study_name)
  let chapter_name :=
    if containsChar chapter_name ':' then pyStrip (afterFirst chapter_name ':')
    else chapter_name
  study_name ++ " - " ++ chapter_name

/-- `RepertoireBuilder._process_game`: process one chapter into both trees
starting at the roots with White to move (`chess.WHITE` = `true`). -/
def process_game (rep : Repertoire) (opening_name study_name : String)
    (g : GameNode) : Repertoire :=
  let p := process_node rep.white_tree rep.black_tree true opening_name
    study_name g
  ⟨p.1, p.2, rep.position_index⟩

/-- `RepertoireBuilder._process_study`: process each chapter of the study
in order, labelling it with the derived chapter label. -/
def process_study (rep : Repertoire) (opening_name study_name : String)
    (chapters : List Chapter) : Repertoire :=
  chapters.foldl
    (fun r ch => process_game r opening_name (chapterLabel study_name ch)
      ch.root)
    rep

/-- The external board utility (`python-chess`): an abstract board type
with the initial position, SAN application that can fail (`ValueError` on
an illegal or unparseable move, modelled as `none`), and FEN rendering. -/
structure BoardApi (B : Type) : Type where
  init : B
  pushSan : B → String → Option B
  fen : B → String

mutual

/-- The recursive `traverse_tree` closure of
`RepertoireBuilder._build_fen_index`: index a node's FEN when both the
FEN and the node's opening name are truthy, then recurse into each child
whose stored SAN replays legally (a `ValueError` skips that subtree). -/
def traverse_tree {B : Type} (api : BoardApi B) (node : RepertoireNode)
    (board : B) (idx : List (String × (String × Option String × Nat))) :
    List (String × (String × Option String × Nat)) :=
  let fen := api.fen board
  let idx' :=
    match node.opening_name with
    | some op =>
        if fen ≠ "" ∧ op ≠ "" then
          insertAL idx fen (op, node.study_name, node.children.length)
        else idx
    | none => idx
  match node with
  | .mk cs _ _ _ => traverse_children api cs board idx'
termination_by sizeOf node
decreasing_by all_goals (simp_wf <;> omega)

/-- The `for move_san, child_node in node.children.items()` loop of
`_build_fen_index`'s traversal. -/
def traverse_children {B : Type} (api : BoardApi B)
    (l : List (String × RepertoireNode)) (board : B)
    (idx : List (String × (String × Option String × Nat))) :
    List (String × (String × Option String × Nat)) :=
  match l with
  | [] => idx
  | (move_san, child) :: rest =>
      let idx' :=
        match api.pushSan board move_san with
        | some b' => traverse_tree api child b' idx
        | none => idx
      traverse_children api rest board idx'
termination_by sizeOf l
decreasing_by all_goals (simp_wf <;> omega)

end

/-- `RepertoireBuilder._build_fen_index`: traverse the white tree from the
initial board, inserting into the repertoire's (persistent) index dict. -/
def build_fen_index {B : Type} (api : BoardApi B) (rep : Repertoire) :
    Repertoire :=
  ⟨rep.white_tree, rep.black_tree,
    traverse_tree api rep.white_tree api.init rep.position_index⟩

/-- One queued `(pgn, opening_name, study_name)` triple of the builder,
with the PGN already parsed into chapters by the external library. -/
structure StudyRecord : Type where
  chapters : List Chapter
  opening_name : String
  study_name : String

/-- `RepertoireBuilder`: the repertoire under construction plus the queued
studies.  `build()` mutates and returns `self.repertoire`; the queue is
never cleared. -/
structure RepertoireBuilder : Type where
  repertoire : Repertoire
  studies : List StudyRecord

/-- `RepertoireBuilder.__init__`. -/
def mkRepertoireBuilder : RepertoireBuilder := ⟨emptyRepertoire, []⟩

/-- `RepertoireBuilder.add_study`: queue a study, defaulting the study
name to the opening name (`study_name or opening_name`). -/
def add_study (b : RepertoireBuilder) (pgn : List Chapter)
    (opening_name : String) (study_name : Option String) :
    RepertoireBuilder :=
  { b with
    studies := b.studies ++ [⟨pgn, opening_name, pyOrStr study_name opening_name⟩] }

/-- `RepertoireBuilder.build`: process all queued studies into the
builder's repertoire, rebuild the FEN index and return the repertoire
(the builder keeps both the queue and the mutated repertoire). -/
def build {B : Type} (api : BoardApi B) (b : RepertoireBuilder) :
    RepertoireBuilder × Repertoire :=
  let rep := b.studies.foldl
    (fun r s => process_study r s.opening_name s.study_name s.chapters)
    b.repertoire
  let rep := build_fen_index api rep
  ({ b with repertoire := rep }, rep)

/-- The uncaught exception the analyzer can raise: the `KeyError` from
`current_node.children[move_san]` when the lookup that follows the
deviation checks misses. -/
inductive AnalyzerError : Type where
  | keyError
deriving DecidableEq

/-- The `DeviationResult` dataclass of `analyzer.py`. -/
structure DeviationResult : Type where
  game_url : String
  opening_name : String
  result_type : String
  move_number : Nat
  user_color : String
  game_date : Option String
  study_name : Option String
  your_move : Option String
  correct_move : Option String
  opponent_move : Option String
  fen : Option String
  variation_count : Option Nat
deriving DecidableEq, Repr

/-- The dict produced by `DeviationResult.to_dict`. -/
structure DeviationDict : Type where
  game_url : String
  opening_name : String
  result_type : String
  move_number : Nat
  user_color : String
  game_date : Option String
  study_name : Option String
  your_move : Option String
  correct_move : Option String
  opponent_move : Option String
  fen : Option String
  variation_count : Option Nat
  analysis_url : Option String
deriving DecidableEq, Repr

/-- `DeviationResult.to_dict`: all fields verbatim plus the derived
`analysis_url`, absent when `self.fen` is falsy. -/
def DeviationResult.to_dict (r : DeviationResult) : DeviationDict :=
  { game_url := r.game_url
    opening_name := r.opening_name
    result_type := r.result_type
    move_number := r.move_number
    user_color := r.user_color
    game_date := r.game_date
    study_name := r.study_name
    your_move := r.your_move
    correct_move := r.correct_move
    opponent_move := r.opponent_move
    fen := r.fen
    variation_count := r.variation_count
    analysis_url :=
      match r.fen with
      | some f =>
          if f ≠ "" then
            some ("https://lichess.org/analysis/" ++ replaceChar f ' ' '_')
          else none
      | none => none }

/-- A played game record as consumed by `analyze_game`: `game.get("moves",
[])`, `game.get("white", "")`, `game.get("url", "")` and the optional
epoch timestamp `game.get("date")`. -/
structure Game : Type where
  moves : List String
  white : String
  url : String
  date : Option Int

/-- The date-formatting fragment of `analyze_game`: `game_date` stays
`None` when `game.get("date")` is falsy (absent, or the number `0`);
otherwise `datetime.fromtimestamp(ts).strftime("%Y-%m-%d")` is attempted
and any `ValueError`/`TypeError`/`OSError` (a `none` from the abstract
formatter `fmt`) degrades to `None`. -/
def format_game_date (fmt : Int → Option String) (date : Option Int) :
    Option String :=
  match date with
  | some ts => if ts = 0 then none else fmt ts
  | none => none

/-- The formatting of the correct-move display for a deviation, from the
body of `analyze_game`: the single option verbatim, or a `"Multiple
variations (…)"` summary listing at most five indices with `"..."`
appended when more exist. -/
def format_correct_move (correct_moves : List String) : String :=
  let variation_count := correct_moves.length
  if variation_count = 1 then correct_moves.headD ""
  else
    let variation_nums := String.intercalate ", "
      ((List.range (min variation_count 5)).map (fun j => toString (j + 1)))
    let variation_nums :=
      if variation_count > 5 then variation_nums ++ "..." else variation_nums
    "Multiple variations (" ++ variation_nums ++ ")"

/-- The `for i, move_san in enumerate(moves)` loop of
`DeviationAnalyzer.analyze_game`, walking the game against the tree.  The
three exits of the loop body are: a returned result (deviation or
opponent-left-book), the silent `break` on a failed `board.push_san`
(yielding the final `return None`), and — when the user's move misses a
node with an empty children dict — the fall-through to
`current_node.children[move_san]`, an uncaught `KeyError`. -/
def walk_moves {B : Type} (api : BoardApi B) (fmt : Int → Option String)
    (user_white : Bool) (game_url : String) (date : Option Int) :
    RepertoireNode → B → Nat → List String →
    Except AnalyzerError (Option DeviationDict)
  | _, _, _, [] => .ok none
  | node, board, i, move_san :: rest =>
      let is_white_move : Bool := i % 2 = 0
      let is_your_move : Bool :=
        (is_white_move && user_white) || (!is_white_move && !user_white)
      let current_move_number := i / 2 + 1
      match lookupAL node.children move_san with
      | none =>
          if is_your_move then
            match node.children.map Prod.fst with
            | [] => .error .keyError
            | _ :: _ =>
                let correct_moves := node.children.map Prod.fst
                .ok (some (DeviationResult.to_dict
                  { game_url := game_url
                    opening_name := pyOrStr node.opening_name "Unknown"
                    result_type := "deviation"
                    move_number := current_move_number
                    user_color := if user_white then "white" else "black"
                    game_date := format_game_date fmt date
                    study_name := node.study_name
                    your_move := some move_san
                    correct_move := some (format_correct_move correct_moves)
                    opponent_move := none
                    fen := some (api.fen board)
                    variation_count := some correct_moves.length }))
          else
            .ok (some (DeviationResult.to_dict
              { game_url := game_url
                opening_name := pyOrStr node.opening_name "Unknown"
                result_type := "opponent_left_book"
                move_number := current_move_number
                user_color := if user_white then "white" else "black"
                game_date := format_game_date fmt date
                study_name := node.study_name
                your_move := none
                correct_move := none
                opponent_move := some move_san
                fen := some (api.fen board)
                variation_count := none }))
      | some child =>
          match api.pushSan board move_san with
          | some b' => walk_moves api fmt user_white game_url date child b'
              (i + 1) rest
          | none => .ok none

/-!
Helper layer for the proofs.  `process_node` grows both trees in lockstep;
`addG` is the single-tree restriction (the white tree for `pol = true`,
the black tree for `pol = false`), proved equal to the corresponding
component of `process_node` below.
-/

mutual

/-- Single-tree version of `process_node`: fresh children carry
`is_your_turn = turn` for the white tree (`pol = true`) and `!turn` for
the black tree (`pol = false`). -/
def addG (pol : Bool) (op st : String) (turn : Bool) (t : RepertoireNode)
    (g : GameNode) : RepertoireNode :=
  match g with
  | .mk vars => addGVars pol op st turn t vars
termination_by sizeOf g
decreasing_by all_goals (simp_wf <;> omega)

/-- Single-tree version of `process_vars`. -/
def addGVars (pol : Bool) (op st : String) (turn : Bool)
    (t : RepertoireNode) (l : List (String × GameNode)) : RepertoireNode :=
  match l with
  | [] => t
  | (m, gc) :: rest =>
      let c0 : RepertoireNode :=
        match lookupAL t.children m with
        | some c => c
        | none => .mk [] (some op) (some st) (if pol then turn else !turn)
      let c1 : RepertoireNode :=
        .mk c0.children (some op) (some st) c0.is_your_turn
      let c2 := addG pol op st (!turn) c1 gc
      addGVars pol op st turn
        (.mk (insertAL t.children m c2) t.opening_name t.study_name
          t.is_your_turn) rest
termination_by sizeOf l
decreasing_by all_goals (simp_wf <;> omega)

end

/-- Navigation in a study chapter: the sub-tree reached by a move path. -/
def nodeAt (g : GameNode) : List String → Option GameNode
  | [] => some g
  | m :: q =>
      match lookupAL g.variations m with
      | some gc => nodeAt gc q
      | none => none

/-- A move path occurs in the chapter. -/
def memG (g : GameNode) (q : List String) : Bool := (nodeAt g q).isSome

/-- The chapter's branch keys at a path (empty when the path is absent). -/
def gKeysAt (g : GameNode) (q : List String) : List String :=
  match nodeAt g q with
  | some gc => gc.variations.map Prod.fst
  | none => []

/-- Navigation in a repertoire tree: the node reached by a move path. -/
def followPath (t : RepertoireNode) : List String → Option RepertoireNode
  | [] => some t
  | m :: q =>
      match lookupAL t.children m with
      | some c => followPath c q
      | none => none

/-- A move path occurs in the tree. -/
def memT (t : RepertoireNode) (q : List String) : Bool :=
  (followPath t q).isSome

/-- The children keys at a path (empty when the path is absent). -/
def keysAt (t : RepertoireNode) (q : List String) : List String :=
  match followPath t q with
  | some n => n.children.map Prod.fst
  | none => []

/-- The `is_your_turn` flag at a path (`false` when absent). -/
def flagAt (t : RepertoireNode) (q : List String) : Bool :=
  match followPath t q with
  | some n => n.is_your_turn
  | none => false

/-- The full observable content of the node at a path: ordered children
keys, opening label, study label and turn flag. -/
def viewAt (t : RepertoireNode) (q : List String) :
    Option (List String × Option String × Option String × Bool) :=
  (followPath t q).map fun n =>
    (n.children.map Prod.fst, n.opening_name, n.study_name, n.is_your_turn)

/-- Ordered key union: the left keys followed by the new right keys. -/
def mergeKeys (a b : List String) : List String :=
  a ++ b.filter (fun k => !a.contains k)

/-- Key list without duplicates, as a Bool. -/
def nodupB : List String → Bool
  | [] => true
  | x :: xs => !xs.contains x && nodupB xs

mutual

/-- Well-formed chapter: sibling SANs are pairwise distinct at every node
(this always holds for chapters produced by the chess library, since SAN
is injective on the legal moves of one position). -/
def wfG : GameNode → Bool
  | .mk vars => nodupB (vars.map Prod.fst) && wfGVars vars
termination_by g => sizeOf g
decreasing_by all_goals (simp_wf <;> omega)

/-- `wfG` over a variation list. -/
def wfGVars : List (String × GameNode) → Bool
  | [] => true
  | (_, gc) :: rest => wfG gc && wfGVars rest
termination_by l => sizeOf l
decreasing_by all_goals (simp_wf <;> omega)

end

mutual

/-- Well-formed repertoire tree: children keys pairwise distinct at every
node (true of every tree the builder produces, dicts having unique keys). -/
def wfT : RepertoireNode → Bool
  | .mk cs _ _ _ => nodupB (cs.map Prod.fst) && wfTChildren cs
termination_by t => sizeOf t
decreasing_by all_goals (simp_wf <;> omega)

/-- `wfT` over a children list. -/
def wfTChildren : List (String × RepertoireNode) → Bool
  | [] => true
  | (_, c) :: rest => wfT c && wfTChildren rest
termination_by l => sizeOf l
decreasing_by all_goals (simp_wf <;> omega)

end

/-- The turn to move after `d` plies starting from `turn`. -/
def turnAtDepth (turn : Bool) (d : Nat) : Bool :=
  if d % 2 = 0 then turn else !turn

/-- The `is_your_turn` flag a freshly created node receives at the end of
a nonempty path `q`, for polarity `pol`, when processing starts at `turn`. -/
def newFlag (pol turn : Bool) (q : List String) : Bool :=
  let tn := turnAtDepth turn (q.length - 1)
  if pol then tn else !tn

/-- `DeviationAnalyzer.analyze_game`: determine the user's colour from the
white-player name (case-insensitive), select the tree, apply the
first-move prefix gate (skipped when the first move is the falsy string
`""`), and walk the move list. -/
def analyze_game {B : Type} (api : BoardApi B) (fmt : Int → Option String)
    (repertoire : Repertoire) (game : Game) (username : String) :
    Except AnalyzerError (Option DeviationDict) :=
  match game.moves with
  | [] => .ok none
  | first_move :: _ =>
      let user_color : Bool := pyLower game.white == pyLower username
      let tree := repertoire.get_tree user_color
      if first_move != "" && (lookupAL tree.children first_move).isNone then
        .ok none
      else
        walk_moves api fmt user_color game.url game.date tree api.init 0
          game.moves


theorem lookupAL_insertAL_self {α : Type} (l : List (String × α)) (k : String)
    (v : α) : lookupAL (insertAL l k v) k = some v := by
  induction l with
  | nil => simp [insertAL, lookupAL]
  | cons hd tl ih =>
      obtain ⟨k', v'⟩ := hd
      by_cases h : k' = k
      · simp [insertAL, h, lookupAL]
      · simp [insertAL, h, lookupAL, ih]

theorem lookupAL_insertAL_ne {α : Type} (l : List (String × α))
    (k k' : String) (v : α) (h : k' ≠ k) :
    lookupAL (insertAL l k v) k' = lookupAL l k' := by
  induction l with
  | nil => simp [insertAL, lookupAL, Ne.symm h]
  | cons hd tl ih =>
      obtain ⟨k'', v'⟩ := hd
      by_cases hk : k'' = k
      · subst hk
        simp [insertAL, lookupAL, Ne.symm h]
      · simp only [insertAL, if_neg hk, lookupAL]
        by_cases hk2 : k'' = k'
        · simp [hk2]
        · simp [hk2, ih]

theorem lookupAL_isSome_iff {α : Type} (l : List (String × α)) (k : String) :
    (lookupAL l k).isSome = true ↔ k ∈ l.map Prod.fst := by
  induction l with
  | nil => simp [lookupAL]
  | cons hd tl ih =>
      obtain ⟨k', v'⟩ := hd
      by_cases h : k' = k
      · simp [lookupAL, h]
      · simp [lookupAL, h, ih, Ne.symm h]

theorem lookupAL_eq_none_iff {α : Type} (l : List (String × α)) (k : String) :
    lookupAL l k = none ↔ ¬ k ∈ l.map Prod.fst := by
  rw [← lookupAL_isSome_iff]
  cases lookupAL l k <;> simp

theorem lookupAL_mem {α : Type} (l : List (String × α)) (k : String) (v : α)
    (h : lookupAL l k = some v) : (k, v) ∈ l := by
  induction l with
  | nil => simp [lookupAL] at h
  | cons hd tl ih =>
      obtain ⟨k', v'⟩ := hd
      by_cases hk : k' = k
      · subst hk
        simp [lookupAL] at h
        simp [h]
      · simp only [lookupAL, if_neg hk] at h
        exact List.mem_cons_of_mem _ (ih h)

theorem keys_insertAL {α : Type} (l : List (String × α)) (k : String)
    (v : α) :
    (insertAL l k v).map Prod.fst =
      if k ∈ l.map Prod.fst then l.map Prod.fst
      else l.map Prod.fst ++ [k] := by
  induction l with
  | nil => simp [insertAL]
  | cons hd tl ih =>
      obtain ⟨k', v'⟩ := hd
      by_cases h : k' = k
      · simp [insertAL, h]
      · simp only [insertAL, if_neg h, List.map_cons]
        rw [ih]
        by_cases h2 : k ∈ tl.map Prod.fst
        · simp [h2, Ne.symm h]
        · simp [h2, Ne.symm h]

theorem contains_iff_mem (l : List String) (k : String) :
    l.contains k = true ↔ k ∈ l := by
  simp [List.contains]

mutual

theorem process_node_eq_addG (wt bt : RepertoireNode) (turn : Bool)
    (op st : String) (g : GameNode) :
    process_node wt bt turn op st g =
      (addG true op st turn wt g, addG false op st turn bt g) := by
  cases g with
  | mk vars =>
      rw [process_node, addG, addG]
      exact process_vars_eq_addG wt bt turn op st vars
termination_by sizeOf g
decreasing_by all_goals (simp_wf <;> omega)

theorem process_vars_eq_addG (wt bt : RepertoireNode) (turn : Bool)
    (op st : String) (l : List (String × GameNode)) :
    process_vars wt bt turn op st l =
      (addGVars true op st turn wt l, addGVars false op st turn bt l) := by
  cases l with
  | nil => rw [process_vars, addGVars, addGVars]
  | cons hd rest =>
      obtain ⟨m, gc⟩ := hd
      rw [process_vars, addGVars, addGVars]
      simp only [if_true, Bool.false_eq_true, if_false]
      rw [process_node_eq_addG]
      exact process_vars_eq_addG _ _ turn op st rest
termination_by sizeOf l
decreasing_by all_goals (simp_wf <;> omega)

end

theorem contains_eq_decide (l : List String) (k : String) :
    l.contains k = decide (k ∈ l) := by
  cases hc : l.contains k with
  | true =>
      have := (contains_iff_mem l k).1 hc
      simp [this]
  | false =>
      have : ¬ k ∈ l := fun hm => by
        rw [(contains_iff_mem l k).2 hm] at hc
        cases hc
      simp [this]

theorem nodupB_cons_elim (x : String) (xs : List String)
    (h : nodupB (x :: xs) = true) :
    xs.contains x = false ∧ nodupB xs = true := by
  rw [nodupB] at h
  constructor
  · cases hc : xs.contains x with
    | true => rw [hc] at h; simp at h
    | false => rfl
  · exact (Bool.and_elim_right h)

theorem addGVars_root_fields (pol : Bool) (op st : String) (turn : Bool)
    (t : RepertoireNode) (l : List (String × GameNode)) :
    (addGVars pol op st turn t l).opening_name = t.opening_name ∧
    (addGVars pol op st turn t l).study_name = t.study_name ∧
    (addGVars pol op st turn t l).is_your_turn = t.is_your_turn := by
  induction l generalizing t with
  | nil => rw [addGVars]; exact ⟨rfl, rfl, rfl⟩
  | cons hd rest ih =>
      obtain ⟨m, gc⟩ := hd
      rw [addGVars]
      refine ⟨?_, ?_, ?_⟩
      · rw [(ih _).1]; rfl
      · rw [(ih _).2.1]; rfl
      · rw [(ih _).2.2]; rfl

theorem addG_root_fields (pol : Bool) (op st : String) (turn : Bool)
    (t : RepertoireNode) (g : GameNode) :
    (addG pol op st turn t g).opening_name = t.opening_name ∧
    (addG pol op st turn t g).study_name = t.study_name ∧
    (addG pol op st turn t g).is_your_turn = t.is_your_turn := by
  cases g with
  | mk vars => rw [addG]; exact addGVars_root_fields pol op st turn t vars

theorem keys_addGVars (pol : Bool) (op st : String) (turn : Bool)
    (t : RepertoireNode) (l : List (String × GameNode))
    (hnd : nodupB (l.map Prod.fst) = true) :
    (addGVars pol op st turn t l).children.map Prod.fst =
      mergeKeys (t.children.map Prod.fst) (l.map Prod.fst) := by
  induction l generalizing t with
  | nil => rw [addGVars]; simp [mergeKeys]
  | cons hd rest ih =>
      obtain ⟨m, gc⟩ := hd
      simp only [List.map_cons] at hnd
      obtain ⟨hm, hnd'⟩ := nodupB_cons_elim _ _ hnd
      rw [addGVars]
      rw [ih _ hnd']
      show mergeKeys ((insertAL t.children m _).map Prod.fst) _ = _
      rw [keys_insertAL]
      by_cases hk : m ∈ t.children.map Prod.fst
      · rw [if_pos hk]
        simp only [mergeKeys, List.map_cons, List.filter_cons]
        rw [contains_eq_decide]
        simp [hk]
      · rw [if_neg hk]
        simp only [mergeKeys, List.map_cons, List.filter_cons]
        rw [contains_eq_decide]
        simp only [hk, decide_False, Bool.not_false, if_pos]
        rw [List.append_assoc]
        simp only [List.singleton_append]
        congr 1
        congr 1
        apply List.filter_congr
        intro k hkmem
        rw [contains_eq_decide, contains_eq_decide]
        have hkm : k ≠ m := by
          intro he
          subst he
          rw [(contains_iff_mem _ _).2 hkmem] at hm
          cases hm
        simp [List.mem_append, hkm]

/-- The children of `t`'s child at key `k` (empty when absent). -/
def childrenOf (t : RepertoireNode) (k : String) :
    List (String × RepertoireNode) :=
  match lookupAL t.children k with
  | some c => c.children
  | none => []

/-- The flag of `t`'s child at key `k`, defaulting to the flag a fresh
child would receive. -/
def childFlag (pol turn : Bool) (t : RepertoireNode) (k : String) : Bool :=
  match lookupAL t.children k with
  | some c => c.is_your_turn
  | none => if pol then turn else !turn

theorem childrenOf_mk_insert (o s : Option String) (f : Bool)
    (t : RepertoireNode) (m k : String) (v : RepertoireNode) (h : k ≠ m) :
    childrenOf (RepertoireNode.mk (insertAL t.children m v) o s f) k =
      childrenOf t k := by
  unfold childrenOf
  show (match lookupAL (insertAL t.children m v) k with
    | some c => c.children
    | none => []) = _
  rw [lookupAL_insertAL_ne _ _ _ _ h]

theorem childFlag_mk_insert (pol turn : Bool) (o s : Option String) (f : Bool)
    (t : RepertoireNode) (m k : String) (v : RepertoireNode) (h : k ≠ m) :
    childFlag pol turn (RepertoireNode.mk (insertAL t.children m v) o s f) k =
      childFlag pol turn t k := by
  unfold childFlag
  show (match lookupAL (insertAL t.children m v) k with
    | some c => c.is_your_turn
    | none => if pol then turn else !turn) = _
  rw [lookupAL_insertAL_ne _ _ _ _ h]

theorem lookup_addGVars (pol : Bool) (op st : String) (turn : Bool)
    (t : RepertoireNode) (l : List (String × GameNode))
    (hnd : nodupB (l.map Prod.fst) = true) (k : String) :
    lookupAL (addGVars pol op st turn t l).children k =
      match lookupAL l k with
      | some gc =>
          some (addG pol op st (!turn)
            (.mk (childrenOf t k) (some op) (some st) (childFlag pol turn t k))
            gc)
      | none => lookupAL t.children k := by
  induction l generalizing t with
  | nil => rw [addGVars]; simp [lookupAL]
  | cons hd rest ih =>
      obtain ⟨m, gc⟩ := hd
      simp only [List.map_cons] at hnd
      obtain ⟨hm, hnd'⟩ := nodupB_cons_elim _ _ hnd
      rw [addGVars]
      rw [ih _ hnd']
      by_cases hk : m = k
      · subst hk
        have hrest : lookupAL rest m = none := by
          rw [lookupAL_eq_none_iff]
          intro hmem
          rw [(contains_iff_mem _ _).2 hmem] at hm
          cases hm
        rw [hrest]
        show lookupAL (insertAL t.children m _) m = _
        rw [lookupAL_insertAL_self]
        simp only [lookupAL, if_pos rfl]
        congr 2
        unfold childrenOf childFlag
        cases hl : lookupAL t.children m <;>
          simp [hl, RepertoireNode.children, RepertoireNode.is_your_turn]
      · have hcons : lookupAL ((m, gc) :: rest) k = lookupAL rest k := by
          simp [lookupAL, hk]
        rw [hcons]
        cases hr : lookupAL rest k with
        | some gc' =>
            rw [childrenOf_mk_insert _ _ _ _ _ _ _ (Ne.symm hk),
              childFlag_mk_insert _ _ _ _ _ _ _ _ _ (Ne.symm hk)]
        | none =>
            show lookupAL (insertAL t.children m _) k = _
            rw [lookupAL_insertAL_ne _ _ _ _ (Ne.symm hk)]

theorem wfG_mk_elim (vars : List (String × GameNode))
    (h : wfG (.mk vars) = true) :
    nodupB (vars.map Prod.fst) = true ∧ wfGVars vars = true := by
  rw [wfG] at h
  exact Bool.and_eq_true_iff.mp h

theorem wfGVars_lookup (l : List (String × GameNode)) (k : String)
    (gc : GameNode) (hw : wfGVars l = true) (h : lookupAL l k = some gc) :
    wfG gc = true := by
  induction l with
  | nil => simp [lookupAL] at h
  | cons hd rest ih =>
      obtain ⟨m, g0⟩ := hd
      rw [wfGVars] at hw
      obtain ⟨hw1, hw2⟩ := Bool.and_eq_true_iff.mp hw
      by_cases hk : m = k
      · simp only [lookupAL, if_pos hk] at h
        cases h
        exact hw1
      · simp only [lookupAL, if_neg hk] at h
        exact ih hw2 h

theorem keysAt_nil (t : RepertoireNode) :
    keysAt t [] = t.children.map Prod.fst := by
  simp [keysAt, followPath]

theorem memT_nil (t : RepertoireNode) : memT t [] = true := by
  simp [memT, followPath]

theorem flagAt_nil (t : RepertoireNode) : flagAt t [] = t.is_your_turn := by
  simp [flagAt, followPath]

theorem viewAt_nil (t : RepertoireNode) :
    viewAt t [] = some (t.children.map Prod.fst, t.opening_name,
      t.study_name, t.is_your_turn) := by
  simp [viewAt, followPath]

theorem followPath_cons (t : RepertoireNode) (x : String) (q : List String) :
    followPath t (x :: q) =
      match lookupAL t.children x with
      | some c => followPath c q
      | none => none := by
  rw [followPath]

theorem keysAt_congr (a b : RepertoireNode) (p r : List String)
    (h : followPath a p = followPath b r) : keysAt a p = keysAt b r := by
  unfold keysAt
  rw [h]

theorem memT_congr (a b : RepertoireNode) (p r : List String)
    (h : followPath a p = followPath b r) : memT a p = memT b r := by
  unfold memT
  rw [h]

theorem flagAt_congr (a b : RepertoireNode) (p r : List String)
    (h : followPath a p = followPath b r) : flagAt a p = flagAt b r := by
  unfold flagAt
  rw [h]

theorem viewAt_congr (a b : RepertoireNode) (p r : List String)
    (h : followPath a p = followPath b r) : viewAt a p = viewAt b r := by
  unfold viewAt
  rw [h]

theorem keysAt_single (t : RepertoireNode) (x : String) :
    keysAt t [x] = (childrenOf t x).map Prod.fst := by
  unfold keysAt childrenOf
  rw [followPath_cons]
  cases lookupAL t.children x <;> simp [followPath]

theorem childFlag_single (pol turn : Bool) (t : RepertoireNode) (x : String) :
    childFlag pol turn t x =
      if memT t [x] then flagAt t [x] else (if pol then turn else !turn) := by
  unfold childFlag memT flagAt
  rw [followPath_cons]
  cases lookupAL t.children x <;> simp [followPath]

theorem memT_single (t : RepertoireNode) (x : String) :
    memT t [x] = (lookupAL t.children x).isSome := by
  unfold memT
  rw [followPath_cons]
  cases lookupAL t.children x <;> simp [followPath]

theorem turnAtDepth_succ (turn : Bool) (n : Nat) :
    turnAtDepth turn (n + 1) = turnAtDepth (!turn) n := by
  unfold turnAtDepth
  by_cases h : n % 2 = 0
  · have h2 : ¬ (n + 1) % 2 = 0 := by omega
    simp [h, h2]
  · have h2 : (n + 1) % 2 = 0 := by omega
    simp [h, h2]

theorem newFlag_single (pol turn : Bool) (m : String) :
    newFlag pol turn [m] = if pol then turn else !turn := by
  simp [newFlag, turnAtDepth]

theorem newFlag_cons (pol turn : Bool) (m y : String) (q : List String) :
    newFlag pol (!turn) (y :: q) = newFlag pol turn (m :: y :: q) := by
  unfold newFlag
  simp only [List.length_cons]
  have h1 : q.length + 1 - 1 = q.length := rfl
  have h2 : q.length + 1 + 1 - 1 = q.length + 1 := rfl
  rw [h1, h2, turnAtDepth_succ]

theorem followPath_mk_childrenOf (t : RepertoireNode) (x : String)
    (o s : Option String) (f : Bool) (y : String) (q : List String) :
    followPath (RepertoireNode.mk (childrenOf t x) o s f) (y :: q) =
      followPath t (x :: y :: q) := by
  rw [followPath_cons, followPath_cons t]
  unfold childrenOf
  cases hl : lookupAL t.children x with
  | some c =>
      show (match lookupAL c.children y with
        | some c' => followPath c' q
        | none => none) = followPath c (y :: q)
      rw [followPath_cons c]
  | none =>
      show (match lookupAL ([] : List (String × RepertoireNode)) y with
        | some c' => followPath c' q
        | none => none) = (none : Option RepertoireNode)
      simp [lookupAL]

theorem sizeOf_lookup_var (vars : List (String × GameNode)) (k : String)
    (gc : GameNode) (h : lookupAL vars k = some gc) :
    sizeOf gc < sizeOf (GameNode.mk vars) := by
  have hm := lookupAL_mem _ _ _ h
  have h2 : sizeOf (k, gc) < sizeOf vars := List.sizeOf_lt_of_mem hm
  simp only [GameNode.mk.sizeOf_spec, Prod.mk.sizeOf_spec] at h2 ⊢
  omega

theorem addG_eq_vars (pol : Bool) (op st : String) (turn : Bool)
    (t : RepertoireNode) (g : GameNode) :
    addG pol op st turn t g = addGVars pol op st turn t g.variations := by
  cases g with
  | mk vars => rw [addG]; rfl

theorem nodeAt_nil (g : GameNode) : nodeAt g [] = some g := by
  rw [nodeAt]

theorem nodeAt_cons (g : GameNode) (x : String) (q : List String) :
    nodeAt g (x :: q) =
      match lookupAL g.variations x with
      | some gc => nodeAt gc q
      | none => none := by
  rw [nodeAt]

theorem wfG_elim (g : GameNode) (h : wfG g = true) :
    nodupB (g.variations.map Prod.fst) = true ∧
      wfGVars g.variations = true := by
  cases g with
  | mk vars => exact wfG_mk_elim vars h

theorem sizeOf_lookup_variations (g : GameNode) (k : String) (gc : GameNode)
    (h : lookupAL g.variations k = some gc) : sizeOf gc < sizeOf g := by
  cases g with
  | mk vars => exact sizeOf_lookup_var vars k gc h

/-- Closed-form description of `addG`: the observable content of every
path of the processed tree, in terms of the original tree and the
chapter. -/
theorem viewAt_addG (g : GameNode) (hg : wfG g = true) (pol : Bool)
    (op st : String) (turn : Bool) (t : RepertoireNode) (q : List String) :
    viewAt (addG pol op st turn t g) q =
      match nodeAt g q with
      | some gc =>
          some (mergeKeys (keysAt t q) (gc.variations.map Prod.fst),
            (if q = [] then t.opening_name else some op),
            (if q = [] then t.study_name else some st),
            (if memT t q then flagAt t q else newFlag pol turn q))
      | none => viewAt t q := by
  obtain ⟨hnd, hvars⟩ := wfG_elim g hg
  rw [addG_eq_vars]
  cases q with
  | nil =>
      rw [viewAt_nil]
      rw [keys_addGVars pol op st turn t g.variations hnd]
      obtain ⟨ho, hs, hf⟩ := addGVars_root_fields pol op st turn t g.variations
      rw [ho, hs, hf, nodeAt_nil]
      rw [keysAt_nil, memT_nil, flagAt_nil]
      simp
  | cons x q' =>
      have hlook := lookup_addGVars pol op st turn t g.variations hnd x
      rw [nodeAt_cons]
      cases hvx : lookupAL g.variations x with
      | some gc =>
          rw [hvx] at hlook
          have hfp : followPath (addGVars pol op st turn t g.variations)
              (x :: q') =
              followPath (addG pol op st (!turn)
                (RepertoireNode.mk (childrenOf t x) (some op) (some st)
                  (childFlag pol turn t x)) gc) q' := by
            rw [followPath_cons, hlook]
          rw [viewAt_congr _ _ _ _ hfp]
          have hgc : wfG gc = true := wfGVars_lookup g.variations x gc hvars hvx
          have hsz := sizeOf_lookup_variations g x gc hvx
          rw [viewAt_addG gc hgc pol op st (!turn) _ q']
          cases q' with
          | nil =>
              simp only [keysAt_nil, memT_nil, flagAt_nil, keysAt_single,
                childFlag_single, newFlag_single, RepertoireNode.children,
                RepertoireNode.opening_name, RepertoireNode.study_name,
                RepertoireNode.is_your_turn]
              simp [nodeAt_nil]
          | cons y q'' =>
              have hfp2 := followPath_mk_childrenOf t x (some op)
                (some st) (childFlag pol turn t x) y q''
              cases hnq : nodeAt gc (y :: q'') with
              | some gc' =>
                  simp only [keysAt_congr _ _ _ _ hfp2, memT_congr _ _ _ _ hfp2,
                    flagAt_congr _ _ _ _ hfp2, newFlag_cons pol turn x y q'']
                  simp [hnq]
              | none =>
                  rw [viewAt_congr _ _ _ _ hfp2]
                  simp [hnq]
      | none =>
          rw [hvx] at hlook
          have hfp : followPath (addGVars pol op st turn t g.variations)
              (x :: q') = followPath t (x :: q') := by
            rw [followPath_cons, hlook, followPath_cons t]
          rw [viewAt_congr _ _ _ _ hfp]
termination_by sizeOf g
decreasing_by all_goals (simp_wf <;> omega)

/-- The pair of labels at a path (defaults when the path is absent). -/
def labelAt (t : RepertoireNode) (q : List String) :
    Option String × Option String :=
  match followPath t q with
  | some n => (n.opening_name, n.study_name)
  | none => (none, none)

theorem memT_eq_viewAt (t : RepertoireNode) (q : List String) :
    memT t q = (viewAt t q).isSome := by
  unfold memT viewAt
  cases followPath t q <;> simp

theorem keysAt_eq_viewAt (t : RepertoireNode) (q : List String) :
    keysAt t q = (match viewAt t q with
      | some v => v.1
      | none => []) := by
  unfold keysAt viewAt
  cases followPath t q <;> simp

theorem flagAt_eq_viewAt (t : RepertoireNode) (q : List String) :
    flagAt t q = (match viewAt t q with
      | some v => v.2.2.2
      | none => false) := by
  unfold flagAt viewAt
  cases followPath t q <;> simp

theorem labelAt_eq_viewAt (t : RepertoireNode) (q : List String) :
    labelAt t q = (match viewAt t q with
      | some v => (v.2.1, v.2.2.1)
      | none => (none, none)) := by
  unfold labelAt viewAt
  cases followPath t q <;> simp

theorem flagAt_of_not_memT (t : RepertoireNode) (q : List String)
    (h : memT t q = false) : flagAt t q = false := by
  unfold memT at h
  unfold flagAt
  cases hf : followPath t q
  · rfl
  · rw [hf] at h; simp at h

theorem viewAt_eq_components (t : RepertoireNode) (q : List String) :
    viewAt t q = if memT t q then
      some (keysAt t q, (labelAt t q).1, (labelAt t q).2, flagAt t q)
    else none := by
  unfold viewAt memT keysAt labelAt flagAt
  cases followPath t q <;> simp

theorem mergeKeys_nil_right (a : List String) : mergeKeys a [] = a := by
  simp [mergeKeys]

theorem mergeKeys_nil_left (b : List String) : mergeKeys [] b = b := by
  unfold mergeKeys
  rw [List.nil_append]
  apply List.filter_eq_self.mpr
  intro x _
  simp [List.contains]

theorem mem_mergeKeys (a b : List String) (k : String) :
    k ∈ mergeKeys a b ↔ k ∈ a ∨ k ∈ b := by
  unfold mergeKeys
  simp only [List.mem_append, List.mem_filter, contains_eq_decide]
  constructor
  · rintro (h | ⟨h, _⟩)
    · exact Or.inl h
    · exact Or.inr h
  · intro h
    by_cases ha : k ∈ a
    · exact Or.inl ha
    · rcases h with h | h
      · exact absurd h ha
      · refine Or.inr ⟨h, ?_⟩
        simp [ha]

theorem mergeKeys_assoc (a b c : List String) :
    mergeKeys (mergeKeys a b) c = mergeKeys a (mergeKeys b c) := by
  unfold mergeKeys
  rw [List.filter_append, List.append_assoc]
  congr 1
  congr 1
  rw [List.filter_filter]
  apply List.filter_congr
  intro k _
  rw [contains_eq_decide, contains_eq_decide, contains_eq_decide]
  simp only [List.mem_append, List.mem_filter, contains_eq_decide]
  by_cases ha : k ∈ a <;> by_cases hb : k ∈ b <;> simp [ha, hb]

theorem mergeKeys_absorb (a b : List String) :
    mergeKeys (mergeKeys a b) b = mergeKeys a b := by
  unfold mergeKeys
  have h : (b.filter fun k => !(a ++ b.filter
      (fun k' => !a.contains k')).contains k) = [] := by
    apply List.filter_eq_nil.mpr
    intro k hk
    rw [contains_eq_decide]
    simp only [List.mem_append, List.mem_filter, contains_eq_decide]
    by_cases ha : k ∈ a <;> simp [ha, hk]
  rw [h, List.append_nil]

theorem memT_addG (g : GameNode) (hg : wfG g = true) (pol : Bool)
    (op st : String) (turn : Bool) (t : RepertoireNode) (q : List String) :
    memT (addG pol op st turn t g) q = (memT t q || memG g q) := by
  unfold memG
  have h := viewAt_addG g hg pol op st turn t q
  cases hn : nodeAt g q with
  | some gc =>
      rw [hn] at h
      rw [memT_eq_viewAt, h]
      simp
  | none =>
      rw [hn] at h
      rw [memT_eq_viewAt, h, ← memT_eq_viewAt]
      simp

theorem keysAt_addG (g : GameNode) (hg : wfG g = true) (pol : Bool)
    (op st : String) (turn : Bool) (t : RepertoireNode) (q : List String) :
    keysAt (addG pol op st turn t g) q =
      mergeKeys (keysAt t q) (gKeysAt g q) := by
  unfold gKeysAt
  have h := viewAt_addG g hg pol op st turn t q
  cases hn : nodeAt g q with
  | some gc =>
      rw [hn] at h
      rw [keysAt_eq_viewAt, h]
  | none =>
      rw [hn] at h
      rw [keysAt_eq_viewAt, h, ← keysAt_eq_viewAt, mergeKeys_nil_right]

theorem flagAt_addG (g : GameNode) (hg : wfG g = true) (pol : Bool)
    (op st : String) (turn : Bool) (t : RepertoireNode) (q : List String) :
    flagAt (addG pol op st turn t g) q =
      if memT t q then flagAt t q
      else (if memG g q then newFlag pol turn q else false) := by
  unfold memG
  have h := viewAt_addG g hg pol op st turn t q
  cases hn : nodeAt g q with
  | some gc =>
      rw [hn] at h
      rw [flagAt_eq_viewAt, h]
      simp
  | none =>
      rw [hn] at h
      rw [flagAt_eq_viewAt, h, ← flagAt_eq_viewAt]
      cases hmt : memT t q with
      | true => simp
      | false => rw [flagAt_of_not_memT t q hmt]; simp

theorem labelAt_addG (g : GameNode) (hg : wfG g = true) (pol : Bool)
    (op st : String) (turn : Bool) (t : RepertoireNode) (q : List String)
    (hq : q ≠ []) :
    labelAt (addG pol op st turn t g) q =
      if memG g q then (some op, some st) else labelAt t q := by
  unfold memG
  have h := viewAt_addG g hg pol op st turn t q
  cases hn : nodeAt g q with
  | some gc =>
      rw [hn] at h
      rw [labelAt_eq_viewAt, h]
      simp [hq]
  | none =>
      rw [hn] at h
      rw [labelAt_eq_viewAt, h, ← labelAt_eq_viewAt]
      simp

theorem labelAt_addG_nil (g : GameNode) (hg : wfG g = true) (pol : Bool)
    (op st : String) (turn : Bool) (t : RepertoireNode) :
    labelAt (addG pol op st turn t g) [] = labelAt t [] := by
  have h := viewAt_addG g hg pol op st turn t []
  rw [nodeAt_nil] at h
  rw [labelAt_eq_viewAt, h]
  simp [labelAt_eq_viewAt, viewAt_nil, labelAt, followPath]

/-- One chapter-processing job: `(opening_name, derived study label, chapter
root)`, in build order. -/
abbrev Job := String × String × GameNode

/-- Processing a job list into one tree (each chapter starts at the root
with White to move). -/
def addSeq (pol : Bool) (t : RepertoireNode) : List Job → RepertoireNode
  | [] => t
  | j :: rest => addSeq pol (addG pol j.1 j.2.1 true t j.2.2) rest

/-- All chapters in the job list are well-formed. -/
def wfJobs (L : List Job) : Bool := L.all (fun j => wfG j.2.2)

/-- Some chapter of the job list contains the path. -/
def memAny (L : List Job) (q : List String) : Bool :=
  L.any (fun j => memG j.2.2 q)

/-- The labels of the last job whose chapter contains the path. -/
def lastLab (L : List Job) (q : List String) : Option (String × String) :=
  L.foldl (fun acc j => if memG j.2.2 q then some (j.1, j.2.1) else acc) none

/-- The accumulated (ordered, deduplicated) children keys the job list
contributes at a path. -/
def seqKeys (L : List Job) (q : List String) : List String :=
  L.foldl (fun ks j => mergeKeys ks (gKeysAt j.2.2 q)) []

theorem wfJobs_cons (j : Job) (L : List Job)
    (h : wfJobs (j :: L) = true) : wfG j.2.2 = true ∧ wfJobs L = true := by
  simp only [wfJobs, List.all_cons, Bool.and_eq_true] at h
  exact ⟨h.1, h.2⟩

theorem memAny_cons (j : Job) (L : List Job) (q : List String) :
    memAny (j :: L) q = (memG j.2.2 q || memAny L q) := by
  simp [memAny]

theorem foldl_mergeKeys (q : List String) (L : List Job) (a : List String) :
    L.foldl (fun ks j => mergeKeys ks (gKeysAt j.2.2 q)) a =
      mergeKeys a (seqKeys L q) := by
  induction L generalizing a with
  | nil => simp [seqKeys, mergeKeys_nil_right]
  | cons j L ih =>
      show L.foldl _ (mergeKeys a (gKeysAt j.2.2 q)) = _
      rw [ih]
      have hseq : seqKeys (j :: L) q =
          mergeKeys (gKeysAt j.2.2 q) (seqKeys L q) := by
        unfold seqKeys
        show L.foldl _ (mergeKeys [] (gKeysAt j.2.2 q)) = _
        rw [ih, mergeKeys_nil_left]
        rfl
      rw [hseq, mergeKeys_assoc]

theorem seqKeys_cons (j : Job) (L : List Job) (q : List String) :
    seqKeys (j :: L) q = mergeKeys (gKeysAt j.2.2 q) (seqKeys L q) := by
  unfold seqKeys
  show L.foldl _ (mergeKeys [] (gKeysAt j.2.2 q)) = _
  rw [foldl_mergeKeys, mergeKeys_nil_left]
  rfl

theorem foldl_lastLab (q : List String) (L : List Job)
    (acc : Option (String × String)) :
    L.foldl (fun acc j => if memG j.2.2 q then some (j.1, j.2.1) else acc)
      acc =
      match lastLab L q with
      | some l => some l
      | none => acc := by
  induction L generalizing acc with
  | nil => simp [lastLab]
  | cons j L ih =>
      show L.foldl _ (if memG j.2.2 q then some (j.1, j.2.1) else acc) = _
      rw [ih]
      have hll : lastLab (j :: L) q =
          match lastLab L q with
          | some l => some l
          | none => if memG j.2.2 q then some (j.1, j.2.1) else none := by
        unfold lastLab
        show L.foldl _ (if memG j.2.2 q then some (j.1, j.2.1) else none) = _
        rw [ih]
        rfl
      rw [hll]
      cases lastLab L q with
      | some l => rfl
      | none => cases memG j.2.2 q <;> rfl

theorem lastLab_cons (j : Job) (L : List Job) (q : List String) :
    lastLab (j :: L) q =
      match lastLab L q with
      | some l => some l
      | none => if memG j.2.2 q then some (j.1, j.2.1) else none := by
  unfold lastLab
  show L.foldl _ (if memG j.2.2 q then some (j.1, j.2.1) else none) = _
  rw [foldl_lastLab]
  rfl

theorem addSeq_append (pol : Bool) (t : RepertoireNode) (L1 L2 : List Job) :
    addSeq pol t (L1 ++ L2) = addSeq pol (addSeq pol t L1) L2 := by
  induction L1 generalizing t with
  | nil => rw [addSeq]; rfl
  | cons j L1 ih =>
      show addSeq pol _ (L1 ++ L2) = _
      rw [ih]
      rfl

theorem memT_addSeq (L : List Job) (hw : wfJobs L = true) (pol : Bool)
    (t : RepertoireNode) (q : List String) :
    memT (addSeq pol t L) q = (memT t q || memAny L q) := by
  induction L generalizing t with
  | nil => simp [addSeq, memAny]
  | cons j L ih =>
      obtain ⟨hj, hL⟩ := wfJobs_cons j L hw
      rw [addSeq, ih hL, memT_addG j.2.2 hj pol j.1 j.2.1 true t q,
        memAny_cons, Bool.or_assoc]

theorem keysAt_addSeq (L : List Job) (hw : wfJobs L = true) (pol : Bool)
    (t : RepertoireNode) (q : List String) :
    keysAt (addSeq pol t L) q = mergeKeys (keysAt t q) (seqKeys L q) := by
  induction L generalizing t with
  | nil => simp [addSeq, seqKeys, mergeKeys_nil_right]
  | cons j L ih =>
      obtain ⟨hj, hL⟩ := wfJobs_cons j L hw
      rw [addSeq, ih hL, keysAt_addG j.2.2 hj pol j.1 j.2.1 true t q,
        seqKeys_cons, mergeKeys_assoc]

theorem flagAt_addSeq (L : List Job) (hw : wfJobs L = true) (pol : Bool)
    (t : RepertoireNode) (q : List String) :
    flagAt (addSeq pol t L) q =
      if memT t q then flagAt t q
      else (if memAny L q then newFlag pol true q else false) := by
  induction L generalizing t with
  | nil =>
      rw [addSeq]
      cases hmt : memT t q with
      | true => simp
      | false => simp [memAny, flagAt_of_not_memT t q hmt]
  | cons j L ih =>
      obtain ⟨hj, hL⟩ := wfJobs_cons j L hw
      rw [addSeq, ih hL, memT_addG j.2.2 hj pol j.1 j.2.1 true t q,
        flagAt_addG j.2.2 hj pol j.1 j.2.1 true t q, memAny_cons]
      cases hmt : memT t q <;> cases hmg : memG j.2.2 q <;> simp

theorem labelAt_addSeq (L : List Job) (hw : wfJobs L = true) (pol : Bool)
    (t : RepertoireNode) (q : List String) (hq : q ≠ []) :
    labelAt (addSeq pol t L) q =
      match lastLab L q with
      | some l => (some l.1, some l.2)
      | none => labelAt t q := by
  induction L generalizing t with
  | nil => simp [addSeq, lastLab]
  | cons j L ih =>
      obtain ⟨hj, hL⟩ := wfJobs_cons j L hw
      rw [addSeq, ih hL, labelAt_addG j.2.2 hj pol j.1 j.2.1 true t q hq,
        lastLab_cons]
      cases lastLab L q with
      | some l => rfl
      | none => cases hmg : memG j.2.2 q <;> simp [hmg]

/-- The jobs contributed by one study's chapters, in order. -/
def chapterJobs (opening_name study_name : String)
    (chapters : List Chapter) : List Job :=
  chapters.map (fun ch => (opening_name, chapterLabel study_name ch, ch.root))

/-- The jobs contributed by one queued study. -/
def studyJobs (s : StudyRecord) : List Job :=
  chapterJobs s.opening_name s.study_name s.chapters

/-- All jobs of the builder's queue, in build order. -/
def jobsOf (studies : List StudyRecord) : List Job :=
  (studies.map studyJobs).join

theorem jobsOf_nil : jobsOf [] = [] := rfl

theorem jobsOf_cons (s : StudyRecord) (studies : List StudyRecord) :
    jobsOf (s :: studies) = studyJobs s ++ jobsOf studies := by
  simp [jobsOf]

theorem process_game_eq (rep : Repertoire) (op st : String) (g : GameNode) :
    process_game rep op st g =
      ⟨addG true op st true rep.white_tree g,
        addG false op st true rep.black_tree g, rep.position_index⟩ := by
  unfold process_game
  rw [process_node_eq_addG]

theorem process_study_eq (rep : Repertoire) (op sn : String)
    (chapters : List Chapter) :
    process_study rep op sn chapters =
      ⟨addSeq true rep.white_tree (chapterJobs op sn chapters),
        addSeq false rep.black_tree (chapterJobs op sn chapters),
        rep.position_index⟩ := by
  induction chapters generalizing rep with
  | nil =>
      unfold process_study chapterJobs
      simp [addSeq]
  | cons ch chs ih =>
      unfold process_study
      show chs.foldl _ (process_game rep op (chapterLabel sn ch) ch.root) = _
      have h1 : chs.foldl
          (fun r c => process_game r op (chapterLabel sn c) c.root)
          (process_game rep op (chapterLabel sn ch) ch.root) =
          process_study (process_game rep op (chapterLabel sn ch) ch.root)
            op sn chs := rfl
      rw [h1, ih, process_game_eq]
      unfold chapterJobs
      simp only [List.map_cons]
      rw [addSeq, addSeq]

theorem foldl_process_study (studies : List StudyRecord) (rep : Repertoire) :
    studies.foldl
      (fun r s => process_study r s.opening_name s.study_name s.chapters)
      rep =
      ⟨addSeq true rep.white_tree (jobsOf studies),
        addSeq false rep.black_tree (jobsOf studies),
        rep.position_index⟩ := by
  induction studies generalizing rep with
  | nil =>
      simp [jobsOf_nil, addSeq]
  | cons s studies ih =>
      show studies.foldl _
        (process_study rep s.opening_name s.study_name s.chapters) = _
      rw [ih, process_study_eq, jobsOf_cons, addSeq_append, addSeq_append]
      rfl

theorem build_eq {B : Type} (api : BoardApi B) (b : RepertoireBuilder) :
    build api b =
      (let w := addSeq true b.repertoire.white_tree (jobsOf b.studies)
       let bl := addSeq false b.repertoire.black_tree (jobsOf b.studies)
       let rep : Repertoire :=
         ⟨w, bl, traverse_tree api w api.init b.repertoire.position_index⟩
       ({ b with repertoire := rep }, rep)) := by
  unfold build
  rw [foldl_process_study]
  rfl

theorem addSeq_root_fields (pol : Bool) (t : RepertoireNode) (L : List Job) :
    (addSeq pol t L).opening_name = t.opening_name ∧
    (addSeq pol t L).study_name = t.study_name ∧
    (addSeq pol t L).is_your_turn = t.is_your_turn := by
  induction L generalizing t with
  | nil => rw [addSeq]; exact ⟨rfl, rfl, rfl⟩
  | cons j L ih =>
      rw [addSeq]
      obtain ⟨h1, h2, h3⟩ := ih (addG pol j.1 j.2.1 true t j.2.2)
      obtain ⟨g1, g2, g3⟩ := addG_root_fields pol j.1 j.2.1 true t j.2.2
      exact ⟨h1.trans g1, h2.trans g2, h3.trans g3⟩

theorem memT_empty_cons (m : String) (q : List String) :
    memT emptyNode (m :: q) = false := by
  simp [memT, followPath, emptyNode, RepertoireNode.children, lookupAL]

theorem keysAt_empty (q : List String) : keysAt emptyNode q = [] := by
  cases q with
  | nil => rw [keysAt_nil]; rfl
  | cons m q =>
      simp [keysAt, followPath, emptyNode, RepertoireNode.children, lookupAL]

theorem newFlag_compl (turn : Bool) (q : List String) :
    newFlag true turn q = !(newFlag false turn q) := by
  unfold newFlag
  simp

/-- All chapters of all queued studies are well-formed. -/
def wfStudies (studies : List StudyRecord) : Bool :=
  studies.all (fun s => s.chapters.all (fun ch => wfG ch.root))

theorem wfJobs_append (A C : List Job) :
    wfJobs (A ++ C) = (wfJobs A && wfJobs C) := by
  simp [wfJobs]

theorem wfJobs_chapterJobs (op sn : String) (chs : List Chapter) :
    wfJobs (chapterJobs op sn chs) = chs.all (fun ch => wfG ch.root) := by
  induction chs with
  | nil => rfl
  | cons c chs ih =>
      show (wfG c.root && wfJobs (chapterJobs op sn chs)) =
        (wfG c.root && chs.all fun ch => wfG ch.root)
      rw [ih]

theorem wfJobs_jobsOf (studies : List StudyRecord)
    (h : wfStudies studies = true) : wfJobs (jobsOf studies) = true := by
  induction studies with
  | nil => rfl
  | cons s studies ih =>
      simp only [wfStudies, List.all_cons, Bool.and_eq_true] at h
      rw [jobsOf_cons, wfJobs_append]
      have h1 : wfJobs (studyJobs s) = true := by
        unfold studyJobs
        rw [wfJobs_chapterJobs]
        exact h.1
      rw [h1, ih h.2]
      rfl

theorem jobsOf_append (A C : List StudyRecord) :
    jobsOf (A ++ C) = jobsOf A ++ jobsOf C := by
  simp [jobsOf]

theorem lastLab_append_single (L : List Job) (j : Job) (q : List String) :
    lastLab (L ++ [j]) q =
      if memG j.2.2 q then some (j.1, j.2.1) else lastLab L q := by
  unfold lastLab
  rw [List.foldl_append]
  rw [List.foldl_cons, List.foldl_nil]

theorem add_study_repertoire (b : RepertoireBuilder) (pgn : List Chapter)
    (op : String) (sn : Option String) :
    (add_study b pgn op sn).repertoire = b.repertoire := rfl

theorem wfT_mk_elim (cs : List (String × RepertoireNode))
    (o s : Option String) (f : Bool) (h : wfT (.mk cs o s f) = true) :
    nodupB (cs.map Prod.fst) = true ∧ wfTChildren cs = true := by
  rw [wfT] at h
  exact Bool.and_eq_true_iff.mp h

theorem wfT_mk_intro (cs : List (String × RepertoireNode))
    (o s : Option String) (f : Bool) (h1 : nodupB (cs.map Prod.fst) = true)
    (h2 : wfTChildren cs = true) : wfT (.mk cs o s f) = true := by
  rw [wfT, h1, h2]
  rfl

theorem wfT_elim (t : RepertoireNode) (h : wfT t = true) :
    nodupB (t.children.map Prod.fst) = true ∧
      wfTChildren t.children = true := by
  cases t with
  | mk cs o s f => exact wfT_mk_elim cs o s f h

theorem wfTChildren_lookup (l : List (String × RepertoireNode)) (k : String)
    (c : RepertoireNode) (hw : wfTChildren l = true)
    (h : lookupAL l k = some c) : wfT c = true := by
  induction l with
  | nil => simp [lookupAL] at h
  | cons hd rest ih =>
      obtain ⟨k', c'⟩ := hd
      rw [wfTChildren] at hw
      obtain ⟨hw1, hw2⟩ := Bool.and_eq_true_iff.mp hw
      by_cases hk : k' = k
      · simp only [lookupAL, if_pos hk] at h
        cases h
        exact hw1
      · simp only [lookupAL, if_neg hk] at h
        exact ih hw2 h

theorem nodupB_append_singleton (l : List String) (k : String)
    (hnd : nodupB l = true) (hk : ¬ k ∈ l) : nodupB (l ++ [k]) = true := by
  induction l with
  | nil => simp [nodupB, List.contains]
  | cons x xs ih =>
      obtain ⟨h1, h2⟩ := nodupB_cons_elim x xs hnd
      have hk' : ¬ k ∈ xs := fun hm => hk (List.mem_cons_of_mem _ hm)
      have hxk : x ≠ k := fun he => hk (he ▸ List.mem_cons_self x xs)
      show (!(xs ++ [k]).contains x && nodupB (xs ++ [k])) = true
      rw [ih h2 hk']
      have hcx : (xs ++ [k]).contains x = false := by
        rw [contains_eq_decide]
        simp only [List.mem_append, List.mem_singleton]
        have hx1 : ¬ x ∈ xs := by
          intro hm
          rw [(contains_iff_mem xs x).2 hm] at h1
          cases h1
        simp [hx1, hxk]
      rw [hcx]
      rfl

theorem nodupB_insertAL (l : List (String × RepertoireNode)) (k : String)
    (v : RepertoireNode) (hnd : nodupB (l.map Prod.fst) = true) :
    nodupB ((insertAL l k v).map Prod.fst) = true := by
  rw [keys_insertAL]
  by_cases h : k ∈ l.map Prod.fst
  · rw [if_pos h]; exact hnd
  · rw [if_neg h]; exact nodupB_append_singleton _ k hnd h

theorem wfTChildren_insertAL (l : List (String × RepertoireNode)) (k : String)
    (v : RepertoireNode) (hw : wfTChildren l = true) (hv : wfT v = true) :
    wfTChildren (insertAL l k v) = true := by
  induction l with
  | nil => simp [insertAL, wfTChildren, hv]
  | cons hd rest ih =>
      obtain ⟨k', c'⟩ := hd
      rw [wfTChildren] at hw
      obtain ⟨hw1, hw2⟩ := Bool.and_eq_true_iff.mp hw
      by_cases hk : k' = k
      · simp only [insertAL, if_pos hk]
        rw [wfTChildren, hv, hw2]
        rfl
      · simp only [insertAL, if_neg hk]
        rw [wfTChildren, hw1, ih hw2]
        rfl

mutual

theorem wfT_addG (pol : Bool) (op st : String) :
    ∀ (turn : Bool) (g : GameNode) (t : RepertoireNode), wfG g = true →
      wfT t = true → wfT (addG pol op st turn t g) = true
  | turn, .mk vars, t, hg, hw => by
      rw [addG]
      exact wfT_addGVars pol op st turn vars t (wfG_mk_elim vars hg).2 hw
termination_by turn g => sizeOf g
decreasing_by all_goals (simp_wf <;> omega)

theorem wfT_addGVars (pol : Bool) (op st : String) :
    ∀ (turn : Bool) (l : List (String × GameNode)) (t : RepertoireNode),
      wfGVars l = true → wfT t = true →
      wfT (addGVars pol op st turn t l) = true
  | turn, [], t, _, hw => by
      rw [addGVars]; exact hw
  | turn, (m, gc) :: rest, t, hl, hw => by
      rw [wfGVars] at hl
      obtain ⟨hgc, hrest⟩ := Bool.and_eq_true_iff.mp hl
      rw [addGVars]
      apply wfT_addGVars pol op st turn rest _ hrest
      obtain ⟨hnd, hch⟩ := wfT_elim t hw
      have hc1 : wfT (RepertoireNode.mk
          (match lookupAL t.children m with
            | some c => c
            | none => RepertoireNode.mk [] (some op) (some st)
                (if pol then turn else !turn)).children
          (some op) (some st)
          (match lookupAL t.children m with
            | some c => c
            | none => RepertoireNode.mk [] (some op) (some st)
                (if pol then turn else !turn)).is_your_turn) = true := by
        cases hlm : lookupAL t.children m with
        | some c =>
            have hwc := wfTChildren_lookup t.children m c hch hlm
            obtain ⟨hnd2, hch2⟩ := wfT_elim c hwc
            cases c with
            | mk cc co cso cf => exact wfT_mk_intro _ _ _ _ hnd2 hch2
        | none =>
            apply wfT_mk_intro
            · rfl
            · show wfTChildren ([] : List (String × RepertoireNode)) = true
              rw [wfTChildren]
      have hc2 := wfT_addG pol op st (!turn) gc _ hgc hc1
      apply wfT_mk_intro
      · exact nodupB_insertAL t.children m _ hnd
      · exact wfTChildren_insertAL t.children m _ hch hc2
termination_by turn l => sizeOf l
decreasing_by all_goals (simp_wf <;> omega)

end

theorem wfT_addSeq (L : List Job) (hw : wfJobs L = true) (pol : Bool)
    (t : RepertoireNode) (ht : wfT t = true) :
    wfT (addSeq pol t L) = true := by
  induction L generalizing t with
  | nil => rw [addSeq]; exact ht
  | cons j L ih =>
      obtain ⟨hj, hL⟩ := wfJobs_cons j L hw
      rw [addSeq]
      exact ih hL _ (wfT_addG pol j.1 j.2.1 true j.2.2 t hj ht)

theorem wfT_emptyNode : wfT emptyNode = true := by
  rw [emptyNode, wfT, wfTChildren]
  rfl

theorem viewAt_cons (t : RepertoireNode) (x : String) (q : List String) :
    viewAt t (x :: q) =
      match lookupAL t.children x with
      | some c => viewAt c q
      | none => none := by
  unfold viewAt
  rw [followPath_cons]
  cases lookupAL t.children x <;> simp

theorem lookupAL_get (l : List (String × RepertoireNode)) (i : Nat)
    (h : i < l.length) (hnd : nodupB (l.map Prod.fst) = true) :
    lookupAL l (l.get ⟨i, h⟩).1 = some (l.get ⟨i, h⟩).2 := by
  induction l generalizing i with
  | nil => simp at h
  | cons hd rest ih =>
      obtain ⟨k, v⟩ := hd
      simp only [List.map_cons] at hnd
      obtain ⟨h1, h2⟩ := nodupB_cons_elim _ _ hnd
      cases i with
      | zero => simp [List.get, lookupAL]
      | succ n =>
          have hn : n < rest.length := by
            simp only [List.length_cons] at h
            omega
          have hget : ((k, v) :: rest).get ⟨n + 1, h⟩ = rest.get ⟨n, hn⟩ := rfl
          rw [hget]
          have hkey : k ≠ (rest.get ⟨n, hn⟩).1 := by
            intro he
            have hmem : (rest.get ⟨n, hn⟩).1 ∈ rest.map Prod.fst :=
              List.mem_map.mpr ⟨rest.get ⟨n, hn⟩, List.get_mem _ _ _, rfl⟩
            rw [← he] at hmem
            rw [(contains_iff_mem _ _).2 hmem] at h1
            cases h1
          simp only [lookupAL, if_neg hkey]
          exact ih n hn h2

theorem wfTChildren_get (l : List (String × RepertoireNode)) (i : Nat)
    (h : i < l.length) (hw : wfTChildren l = true) :
    wfT (l.get ⟨i, h⟩).2 = true := by
  induction l generalizing i with
  | nil => simp at h
  | cons hd rest ih =>
      obtain ⟨k, v⟩ := hd
      rw [wfTChildren] at hw
      obtain ⟨hw1, hw2⟩ := Bool.and_eq_true_iff.mp hw
      cases i with
      | zero => exact hw1
      | succ n =>
          have hn : n < rest.length := by
            simp only [List.length_cons] at h
            omega
          exact ih n hn hw2

theorem sizeOf_get_snd (l : List (String × RepertoireNode)) (i : Nat)
    (h : i < l.length) : sizeOf (l.get ⟨i, h⟩).2 < sizeOf l := by
  have hm : l.get ⟨i, h⟩ ∈ l := List.get_mem _ _ _
  have h2 : sizeOf (l.get ⟨i, h⟩) < sizeOf l := List.sizeOf_lt_of_mem hm
  cases hg : l.get ⟨i, h⟩ with
  | mk k v =>
      rw [hg] at h2
      simp only [Prod.mk.sizeOf_spec] at h2
      show sizeOf v < sizeOf l
      omega

/-- Trees with equal observable content at every path are equal (children
keys must be duplicate-free, which holds for all built trees). -/
theorem viewAt_ext : ∀ (a b : RepertoireNode), wfT a = true → wfT b = true →
    (∀ q, viewAt a q = viewAt b q) → a = b
  | .mk ca oa sa fa, .mk cb ob sb fb, hwa, hwb, h => by
      obtain ⟨hnda, hcha⟩ := wfT_mk_elim ca oa sa fa hwa
      obtain ⟨hndb, hchb⟩ := wfT_mk_elim cb ob sb fb hwb
      have h0 := h []
      rw [viewAt_nil, viewAt_nil] at h0
      simp only [Option.some_inj, Prod.mk.injEq, RepertoireNode.children,
        RepertoireNode.opening_name, RepertoireNode.study_name,
        RepertoireNode.is_your_turn] at h0
      obtain ⟨hkeys, ho, hs, hf⟩ := h0
      have hlen : ca.length = cb.length := by
        have := congrArg List.length hkeys
        simpa using this
      have hchildren : ca = cb := by
        apply List.ext_get hlen
        intro n h1 h2
        have hfst : (ca.get ⟨n, h1⟩).1 = (cb.get ⟨n, h2⟩).1 := by
          have e1 : (ca.map Prod.fst).get ⟨n, by simpa using h1⟩ =
              (ca.get ⟨n, h1⟩).1 := by
            rw [List.get_map]
          have e2 : (cb.map Prod.fst).get ⟨n, by simpa using h2⟩ =
              (cb.get ⟨n, h2⟩).1 := by
            rw [List.get_map]
          rw [← e1, ← e2]
          exact List.get_of_eq hkeys _
        have hk1 := lookupAL_get ca n h1 hnda
        have hk2 := lookupAL_get cb n h2 hndb
        rw [hfst] at hk1
        have hview : ∀ q, viewAt (ca.get ⟨n, h1⟩).2 q =
            viewAt (cb.get ⟨n, h2⟩).2 q := by
          intro q
          have hq := h ((cb.get ⟨n, h2⟩).1 :: q)
          rw [viewAt_cons, viewAt_cons] at hq
          have hca : (RepertoireNode.mk ca oa sa fa).children = ca := rfl
          have hcb : (RepertoireNode.mk cb ob sb fb).children = cb := rfl
          rw [hca, hcb, hk1, hk2] at hq
          exact hq
        have hwa2 := wfTChildren_get ca n h1 hcha
        have hwb2 := wfTChildren_get cb n h2 hchb
        have hsz : sizeOf ca[n].2 < sizeOf ca := sizeOf_get_snd ca n h1
        have hsnd := viewAt_ext (ca.get ⟨n, h1⟩).2 (cb.get ⟨n, h2⟩).2
          hwa2 hwb2 hview
        exact Prod.ext_iff.mpr ⟨hfst, hsnd⟩
      rw [hchildren, ho, hs, hf]
termination_by a => sizeOf a
decreasing_by
  all_goals (simp_wf; (try simp only [RepertoireNode.mk.sizeOf_spec]); omega)

theorem labelAt_nil (t : RepertoireNode) :
    labelAt t [] = (t.opening_name, t.study_name) := by
  simp [labelAt, followPath]

theorem labelAt_addSeq_nil (L : List Job) (pol : Bool) (t : RepertoireNode) :
    labelAt (addSeq pol t L) [] = labelAt t [] := by
  rw [labelAt_nil, labelAt_nil]
  obtain ⟨h1, h2, _⟩ := addSeq_root_fields pol t L
  rw [h1, h2]

theorem flagAt_addSeq_self (L : List Job) (hw : wfJobs L = true) (pol : Bool)
    (t : RepertoireNode) (q : List String) :
    flagAt (addSeq pol (addSeq pol t L) L) q = flagAt (addSeq pol t L) q := by
  rw [flagAt_addSeq L hw pol (addSeq pol t L) q,
    flagAt_addSeq L hw pol t q, memT_addSeq L hw pol t q]
  cases hmt : memT t q <;> cases hma : memAny L q <;>
    simp [flagAt_addSeq L hw pol t q, hmt, hma]

theorem viewAt_addSeq_idem (L : List Job) (hw : wfJobs L = true) (pol : Bool)
    (t : RepertoireNode) (q : List String) :
    viewAt (addSeq pol (addSeq pol t L) L) q =
      viewAt (addSeq pol t L) q := by
  have hm : memT (addSeq pol (addSeq pol t L) L) q =
      memT (addSeq pol t L) q := by
    rw [memT_addSeq L hw pol (addSeq pol t L) q]
    cases hma : memAny L q
    · simp
    · rw [memT_addSeq L hw pol t q, hma]
      simp
  have hk : keysAt (addSeq pol (addSeq pol t L) L) q =
      keysAt (addSeq pol t L) q := by
    rw [keysAt_addSeq L hw pol (addSeq pol t L) q,
      keysAt_addSeq L hw pol t q, mergeKeys_absorb]
  have hl : labelAt (addSeq pol (addSeq pol t L) L) q =
      labelAt (addSeq pol t L) q := by
    cases q with
    | nil => rw [labelAt_addSeq_nil, labelAt_addSeq_nil]
    | cons m q' =>
        have hq : (m :: q') ≠ ([] : List String) := by simp
        rw [labelAt_addSeq L hw pol (addSeq pol t L) (m :: q') hq]
        cases hll : lastLab L (m :: q') with
        | some l => rw [labelAt_addSeq L hw pol t (m :: q') hq, hll]
        | none => rfl
  have hf := flagAt_addSeq_self L hw pol t q
  rw [viewAt_eq_components, viewAt_eq_components, hm, hk, hl, hf]

theorem addSeq_idem (L : List Job) (hw : wfJobs L = true) (pol : Bool)
    (t : RepertoireNode) (ht : wfT t = true) :
    addSeq pol (addSeq pol t L) L = addSeq pol t L := by
  apply viewAt_ext
  · exact wfT_addSeq L hw pol _ (wfT_addSeq L hw pol t ht)
  · exact wfT_addSeq L hw pol t ht
  · exact viewAt_addSeq_idem L hw pol t

/-- Folding `d[k] = v` inserts over a pair list, as the index traversal
does. -/
def foldInsert {α : Type} (idx : List (String × α))
    (ps : List (String × α)) : List (String × α) :=
  ps.foldl (fun a kv => insertAL a kv.1 kv.2) idx

/-- The last value a pair list writes for a key. -/
def lastVal {α : Type} (ps : List (String × α)) (k : String) : Option α :=
  ps.foldl (fun acc kv => if kv.1 = k then some kv.2 else acc) none

theorem foldl_lastVal {α : Type} (k : String) (ps : List (String × α))
    (acc : Option α) :
    ps.foldl (fun acc kv => if kv.1 = k then some kv.2 else acc) acc =
      match lastVal ps k with
      | some v => some v
      | none => acc := by
  induction ps generalizing acc with
  | nil => simp [lastVal]
  | cons kv ps ih =>
      show ps.foldl _ (if kv.1 = k then some kv.2 else acc) = _
      rw [ih]
      have hll : lastVal (kv :: ps) k =
          match lastVal ps k with
          | some v => some v
          | none => if kv.1 = k then some kv.2 else none := by
        unfold lastVal
        show ps.foldl _ (if kv.1 = k then some kv.2 else none) = _
        rw [ih]
        rfl
      rw [hll]
      cases lastVal ps k with
      | some v => rfl
      | none => by_cases hp : kv.1 = k <;> simp [hp]

theorem lastVal_cons {α : Type} (kv : String × α) (ps : List (String × α))
    (k : String) :
    lastVal (kv :: ps) k =
      match lastVal ps k with
      | some v => some v
      | none => if kv.1 = k then some kv.2 else none := by
  unfold lastVal
  show ps.foldl _ (if kv.1 = k then some kv.2 else none) = _
  rw [foldl_lastVal]
  rfl

theorem foldInsert_append {α : Type} (idx : List (String × α))
    (ps qs : List (String × α)) :
    foldInsert idx (ps ++ qs) = foldInsert (foldInsert idx ps) qs := by
  simp [foldInsert, List.foldl_append]

theorem lookup_foldInsert {α : Type} (ps idx : List (String × α))
    (k : String) :
    lookupAL (foldInsert idx ps) k =
      match lastVal ps k with
      | some v => some v
      | none => lookupAL idx k := by
  induction ps generalizing idx with
  | nil => simp [foldInsert, lastVal]
  | cons kv ps ih =>
      show lookupAL (foldInsert (insertAL idx kv.1 kv.2) ps) k = _
      rw [ih, lastVal_cons]
      cases lastVal ps k with
      | some v => rfl
      | none =>
          by_cases hk : kv.1 = k
          · subst hk
            simp [lookupAL_insertAL_self]
          · rw [lookupAL_insertAL_ne _ _ _ _ (Ne.symm hk)]
            simp [hk]

theorem keys_foldInsert_of_mem {α : Type} (ps idx : List (String × α))
    (h : ∀ kv ∈ ps, kv.1 ∈ idx.map Prod.fst) :
    (foldInsert idx ps).map Prod.fst = idx.map Prod.fst := by
  induction ps generalizing idx with
  | nil => rfl
  | cons kv ps ih =>
      show (foldInsert (insertAL idx kv.1 kv.2) ps).map Prod.fst = _
      have hk : kv.1 ∈ idx.map Prod.fst := h kv (List.mem_cons_self _ _)
      have hkeys : (insertAL idx kv.1 kv.2).map Prod.fst =
          idx.map Prod.fst := by
        rw [keys_insertAL, if_pos hk]
      rw [ih, hkeys]
      intro kv' h'
      rw [hkeys]
      exact h kv' (List.mem_cons_of_mem _ h')

theorem lastVal_isSome_of_mem {α : Type} (ps : List (String × α))
    (kv : String × α) (h : kv ∈ ps) : (lastVal ps kv.1).isSome = true := by
  induction ps with
  | nil => simp at h
  | cons kv' ps ih =>
      rw [lastVal_cons]
      cases hlv : lastVal ps kv.1 with
      | some v => simp
      | none =>
          rcases List.mem_cons.mp h with h1 | h2
          · subst h1
            simp
          · have hs := ih h2
            rw [hlv] at hs
            simp at hs

theorem mem_keys_foldInsert {α : Type} (ps idx : List (String × α))
    (kv : String × α) (h : kv ∈ ps) :
    kv.1 ∈ (foldInsert idx ps).map Prod.fst := by
  rw [← lookupAL_isSome_iff]
  rw [lookup_foldInsert]
  have := lastVal_isSome_of_mem ps kv h
  cases hlv : lastVal ps kv.1 with
  | some v => rfl
  | none => rw [hlv] at this; simp at this

theorem nodupB_insertAL_generic {α : Type} (l : List (String × α))
    (k : String) (v : α) (hnd : nodupB (l.map Prod.fst) = true) :
    nodupB ((insertAL l k v).map Prod.fst) = true := by
  rw [keys_insertAL]
  by_cases h : k ∈ l.map Prod.fst
  · rw [if_pos h]; exact hnd
  · rw [if_neg h]; exact nodupB_append_singleton _ k hnd h

theorem nodupB_foldInsert {α : Type} (ps idx : List (String × α))
    (hnd : nodupB (idx.map Prod.fst) = true) :
    nodupB ((foldInsert idx ps).map Prod.fst) = true := by
  induction ps generalizing idx with
  | nil => exact hnd
  | cons kv ps ih =>
      show nodupB ((foldInsert (insertAL idx kv.1 kv.2) ps).map
        Prod.fst) = true
      exact ih _ (nodupB_insertAL_generic idx kv.1 kv.2 hnd)

theorem alEq_of_keys_lookup {α : Type} :
    ∀ (a b : List (String × α)), nodupB (a.map Prod.fst) = true →
      a.map Prod.fst = b.map Prod.fst →
      (∀ k, lookupAL a k = lookupAL b k) → a = b
  | [], b, _, hkeys, _ => by
      have : b.map Prod.fst = [] := hkeys.symm
      have hb : b = [] := List.map_eq_nil.mp this
      rw [hb]
  | (k, v) :: a', b, hnd, hkeys, hlook => by
      cases b with
      | nil => simp at hkeys
      | cons kv2 b' =>
          obtain ⟨k2, v2⟩ := kv2
          simp only [List.map_cons, List.cons.injEq] at hkeys
          obtain ⟨hk, hkeys'⟩ := hkeys
          subst hk
          simp only [List.map_cons] at hnd
          obtain ⟨h1, h2⟩ := nodupB_cons_elim _ _ hnd
          have hv : v = v2 := by
            have := hlook k
            simp only [lookupAL, if_pos rfl] at this
            exact Option.some_inj.mp this
          subst hv
          have hlook' : ∀ k', lookupAL a' k' = lookupAL b' k' := by
            intro k'
            by_cases hk' : k = k'
            · subst hk'
              have ha : lookupAL a' k = none := by
                rw [lookupAL_eq_none_iff]
                intro hm
                rw [(contains_iff_mem _ _).2 hm] at h1
                cases h1
              have hb : lookupAL b' k = none := by
                rw [lookupAL_eq_none_iff, ← hkeys']
                intro hm
                rw [(contains_iff_mem _ _).2 hm] at h1
                cases h1
              rw [ha, hb]
            · have := hlook k'
              simp only [lookupAL, if_neg hk'] at this
              exact this
          rw [alEq_of_keys_lookup a' b' h2 hkeys' hlook']

theorem foldInsert_idem {α : Type} (idx ps : List (String × α))
    (hnd : nodupB (idx.map Prod.fst) = true) :
    foldInsert (foldInsert idx ps) ps = foldInsert idx ps := by
  apply alEq_of_keys_lookup
  · exact nodupB_foldInsert ps _ (nodupB_foldInsert ps idx hnd)
  · apply keys_foldInsert_of_mem
    intro kv h
    exact mem_keys_foldInsert ps idx kv h
  · intro k
    rw [lookup_foldInsert, lookup_foldInsert ps idx k]
    cases hlv : lastVal ps k with
    | some v => rfl
    | none => rfl

mutual

/-- The (fen, value) pairs `_build_fen_index`'s traversal writes, in visit
order. -/
def visitPairs {B : Type} (api : BoardApi B) (node : RepertoireNode)
    (board : B) : List (String × (String × Option String × Nat)) :=
  let fen := api.fen board
  let own : List (String × (String × Option String × Nat)) :=
    match node.opening_name with
    | some op =>
        if fen ≠ "" ∧ op ≠ "" then
          [(fen, (op, node.study_name, node.children.length))]
        else []
    | none => []
  match node with
  | .mk cs _ _ _ => own ++ visitPairsChildren api cs board
termination_by sizeOf node
decreasing_by all_goals (simp_wf <;> omega)

/-- `visitPairs` over a children list. -/
def visitPairsChildren {B : Type} (api : BoardApi B)
    (l : List (String × RepertoireNode)) (board : B) :
    List (String × (String × Option String × Nat)) :=
  match l with
  | [] => []
  | (m, c) :: rest =>
      (match api.pushSan board m with
        | some b' => visitPairs api c b'
        | none => []) ++ visitPairsChildren api rest board
termination_by sizeOf l
decreasing_by all_goals (simp_wf <;> omega)

end

mutual
theorem traverse_eq_foldInsert {B : Type} (api : BoardApi B) :
    ∀ (node : RepertoireNode) (board : B)
      (idx : List (String × (String × Option String × Nat))),
      traverse_tree api node board idx =
        foldInsert idx (visitPairs api node board)
  | .mk cs o s f, board, idx => by
      rw [traverse_tree, visitPairs]
      simp only [RepertoireNode.opening_name, RepertoireNode.study_name,
        RepertoireNode.children]
      cases o with
      | none =>
          show traverse_children api cs board idx =
            foldInsert idx ([] ++ visitPairsChildren api cs board)
          rw [List.nil_append]
          exact traverse_children_eq_foldInsert api cs board idx
      | some op =>
          show traverse_children api cs board
              (if api.fen board ≠ "" ∧ op ≠ "" then
                insertAL idx (api.fen board) (op, s, cs.length) else idx) =
            foldInsert idx
              ((if api.fen board ≠ "" ∧ op ≠ "" then
                [(api.fen board, (op, s, cs.length))] else []) ++
                visitPairsChildren api cs board)
          by_cases hc : api.fen board ≠ "" ∧ op ≠ ""
          · rw [if_pos hc, if_pos hc]
            show traverse_children api cs board
                (insertAL idx (api.fen board) (op, s, cs.length)) =
              foldInsert (insertAL idx (api.fen board) (op, s, cs.length))
                (visitPairsChildren api cs board)
            exact traverse_children_eq_foldInsert api cs board _
          · rw [if_neg hc, if_neg hc]
            show traverse_children api cs board idx =
              foldInsert idx ([] ++ visitPairsChildren api cs board)
            rw [List.nil_append]
            exact traverse_children_eq_foldInsert api cs board idx
termination_by node => sizeOf node
decreasing_by all_goals (simp_wf <;> omega)

theorem traverse_children_eq_foldInsert {B : Type} (api : BoardApi B) :
    ∀ (l : List (String × RepertoireNode)) (board : B)
      (idx : List (String × (String × Option String × Nat))),
      traverse_children api l board idx =
        foldInsert idx (visitPairsChildren api l board)
  | [], board, idx => by
      rw [traverse_children, visitPairsChildren]
      rfl
  | (m, c) :: rest, board, idx => by
      rw [traverse_children, visitPairsChildren]
      cases hp : api.pushSan board m with
      | some b' =>
          show traverse_children api rest board (traverse_tree api c b' idx) =
            foldInsert idx
              (visitPairs api c b' ++ visitPairsChildren api rest board)
          rw [foldInsert_append, traverse_eq_foldInsert api c b' idx]
          exact traverse_children_eq_foldInsert api rest board _
      | none =>
          show traverse_children api rest board idx =
            foldInsert idx ([] ++ visitPairsChildren api rest board)
          rw [List.nil_append]
          exact traverse_children_eq_foldInsert api rest board idx
termination_by l => sizeOf l
decreasing_by all_goals (simp_wf <;> omega)

end

theorem walk_moves_nil {B : Type} (api : BoardApi B)
    (fmt : Int → Option String) (uw : Bool) (url : String)
    (date : Option Int) (node : RepertoireNode) (board : B) (i : Nat) :
    walk_moves api fmt uw url date node board i [] = .ok none := by
  rw [walk_moves]

theorem walk_moves_step_in_book {B : Type} (api : BoardApi B)
    (fmt : Int → Option String) (uw : Bool) (url : String)
    (date : Option Int) (node : RepertoireNode) (board : B) (i : Nat)
    (m : String) (ms : List String) (child : RepertoireNode) (b' : B)
    (hl : lookupAL node.children m = some child)
    (hp : api.pushSan board m = some b') :
    walk_moves api fmt uw url date node board i (m :: ms) =
      walk_moves api fmt uw url date child b' (i + 1) ms := by
  rw [walk_moves, hl, hp]

theorem walk_moves_step_push_fail {B : Type} (api : BoardApi B)
    (fmt : Int → Option String) (uw : Bool) (url : String)
    (date : Option Int) (node : RepertoireNode) (board : B) (i : Nat)
    (m : String) (ms : List String) (child : RepertoireNode)
    (hl : lookupAL node.children m = some child)
    (hp : api.pushSan board m = none) :
    walk_moves api fmt uw url date node board i (m :: ms) = .ok none := by
  rw [walk_moves, hl, hp]

theorem walk_moves_divergence_tail_irrelevant {B : Type} (api : BoardApi B)
    (fmt : Int → Option String) (uw : Bool) (url : String)
    (date : Option Int) (node : RepertoireNode) (board : B) (i : Nat)
    (m : String) (ms ms' : List String)
    (hl : lookupAL node.children m = none) :
    walk_moves api fmt uw url date node board i (m :: ms) =
      walk_moves api fmt uw url date node board i (m :: ms') := by
  rw [walk_moves, walk_moves, hl]

theorem walk_moves_game_date {B : Type} (api : BoardApi B)
    (fmt : Int → Option String) (uw : Bool) (url : String)
    (date : Option Int) :
    ∀ (ms : List String) (node : RepertoireNode) (board : B) (i : Nat)
      (d : DeviationDict),
      walk_moves api fmt uw url date node board i ms = .ok (some d) →
      d.game_date = format_game_date fmt date := by
  intro ms
  induction ms with
  | nil =>
      intro node board i d h
      rw [walk_moves_nil] at h
      simp at h
  | cons m ms ih =>
      intro node board i d h
      cases hl : lookupAL node.children m with
      | some child =>
          cases hp : api.pushSan board m with
          | some b' =>
              rw [walk_moves_step_in_book api fmt uw url date node board i m
                ms child b' hl hp] at h
              exact ih child b' (i + 1) d h
          | none =>
              rw [walk_moves_step_push_fail api fmt uw url date node board i m
                ms child hl hp] at h
              simp at h
      | none =>
          rw [walk_moves, hl] at h
          cases hy : (decide (i % 2 = 0) && uw || !decide (i % 2 = 0) && !uw)
            with
          | true =>
              cases hkeys : List.map Prod.fst node.children with
              | nil =>
                  rw [hkeys] at h
                  simp only [hy] at h
                  simp at h
              | cons cm cms =>
                  rw [hkeys] at h
                  simp only [hy] at h
                  simp only [if_true, if_pos] at h
                  have h2 : DeviationResult.to_dict
                      { game_url := url,
                        opening_name := pyOrStr node.opening_name "Unknown",
                        result_type := "deviation",
                        move_number := i / 2 + 1,
                        user_color := if uw then "white" else "black",
                        game_date := format_game_date fmt date,
                        study_name := node.study_name,
                        your_move := some m,
                        correct_move := some (format_correct_move
                          (cm :: cms)),
                        opponent_move := none,
                        fen := some (api.fen board),
                        variation_count := some (cm :: cms).length } = d := by
                    have h3 := h
                    simp only [Except.ok.injEq, Option.some.injEq] at h3
                    exact h3
                  rw [← h2]
                  simp [DeviationResult.to_dict]
          | false =>
              simp only [hy] at h
              simp only [Bool.false_eq_true, if_false] at h
              have h2 : DeviationResult.to_dict
                  { game_url := url,
                    opening_name := pyOrStr node.opening_name "Unknown",
                    result_type := "opponent_left_book",
                    move_number := i / 2 + 1,
                    user_color := if uw then "white" else "black",
                    game_date := format_game_date fmt date,
                    study_name := node.study_name,
                    your_move := none,
                    correct_move := none,
                    opponent_move := some m,
                    fen := some (api.fen board),
                    variation_count := none } = d := by
                have h3 := h
                simp only [Except.ok.injEq, Option.some.injEq] at h3
                exact h3
              rw [← h2]
              simp [DeviationResult.to_dict]

theorem walk_moves_prefix {B : Type} (api : BoardApi B)
    (fmt : Int → Option String) (uw : Bool) (url : String)
    (date : Option Int) :
    ∀ (ms : List String) (node : RepertoireNode) (board : B) (i : Nat)
      (r : DeviationDict),
      walk_moves api fmt uw url date node board i ms = .ok (some r) →
      ∃ j, 1 ≤ j ∧ j ≤ ms.length ∧
        ∀ rest, walk_moves api fmt uw url date node board i
          (ms.take j ++ rest) = .ok (some r) := by
  intro ms
  induction ms with
  | nil =>
      intro node board i r h
      rw [walk_moves_nil] at h
      simp at h
  | cons m ms ih =>
      intro node board i r h
      cases hl : lookupAL node.children m with
      | none =>
          refine ⟨1, le_refl 1, by simp, ?_⟩
          intro rest
          exact (walk_moves_divergence_tail_irrelevant api fmt uw url date
            node board i m rest ms hl).trans h
      | some child =>
          cases hp : api.pushSan board m with
          | none =>
              rw [walk_moves_step_push_fail api fmt uw url date node board i m
                ms child hl hp] at h
              simp at h
          | some b' =>
              rw [walk_moves_step_in_book api fmt uw url date node board i m
                ms child b' hl hp] at h
              obtain ⟨j, hj1, hj2, hj3⟩ := ih child b' (i + 1) r h
              refine ⟨j + 1, by omega, ?_, ?_⟩
              · simp only [List.length_cons]
                omega
              · intro rest
                show walk_moves api fmt uw url date node board i
                  (m :: (ms.take j ++ rest)) = .ok (some r)
                rw [walk_moves_step_in_book api fmt uw url date node board i m
                  (ms.take j ++ rest) child b' hl hp]
                exact hj3 rest

theorem walk_moves_deviation {B : Type} (api : BoardApi B)
    (fmt : Int → Option String) (uw : Bool) (url : String)
    (date : Option Int) (node : RepertoireNode) (board : B) (i : Nat)
    (m : String) (ms : List String)
    (hl : lookupAL node.children m = none)
    (hy : (decide (i % 2 = 0) && uw || !decide (i % 2 = 0) && !uw) = true)
    (cm : String) (cms : List String)
    (hkeys : node.children.map Prod.fst = cm :: cms) :
    walk_moves api fmt uw url date node board i (m :: ms) =
      .ok (some (DeviationResult.to_dict
        { game_url := url,
          opening_name := pyOrStr node.opening_name "Unknown",
          result_type := "deviation",
          move_number := i / 2 + 1,
          user_color := if uw then "white" else "black",
          game_date := format_game_date fmt date,
          study_name := node.study_name,
          your_move := some m,
          correct_move := some (format_correct_move (cm :: cms)),
          opponent_move := none,
          fen := some (api.fen board),
          variation_count := some (cm :: cms).length })) := by
  rw [walk_moves, hl]
  simp only [hy, hkeys]
  simp

theorem build_snd {B : Type} (api : BoardApi B) (b : RepertoireBuilder) :
    (build api b).2 =
      ⟨addSeq true b.repertoire.white_tree (jobsOf b.studies),
        addSeq false b.repertoire.black_tree (jobsOf b.studies),
        traverse_tree api
          (addSeq true b.repertoire.white_tree (jobsOf b.studies)) api.init
          b.repertoire.position_index⟩ := by
  rw [build_eq]

theorem build_fst {B : Type} (api : BoardApi B) (b : RepertoireBuilder) :
    (build api b).1 = { b with repertoire := (build api b).2 } := by
  rw [build_eq]

theorem analyze_game_moves_nil {B : Type} (api : BoardApi B)
    (fmt : Int → Option String) (rep : Repertoire) (g : Game) (u : String)
    (h : g.moves = []) : analyze_game api fmt rep g u = .ok none := by
  unfold analyze_game
  rw [h]

theorem analyze_game_moves_cons {B : Type} (api : BoardApi B)
    (fmt : Int → Option String) (rep : Repertoire) (g : Game) (u : String)
    (m : String) (rest : List String) (h : g.moves = m :: rest) :
    analyze_game api fmt rep g u =
      if (m != "" && (lookupAL (rep.get_tree
          (pyLower g.white == pyLower u)).children m).isNone) then .ok none
      else walk_moves api fmt (pyLower g.white == pyLower u) g.url g.date
        (rep.get_tree (pyLower g.white == pyLower u)) api.init 0
        (m :: rest) := by
  unfold analyze_game
  rw [h]

/-- A trivial instantiation of the external board utility, for concrete
runs: the board records the pushed SANs, every push succeeds, and the FEN
is a fixed non-empty string. -/
def trivApi : BoardApi (List String) :=
  ⟨[], fun b m => some (b ++ [m]), fun _ => "fen0"⟩

/-- A concrete date formatter: renders epoch `0` and `5`, fails on
everything else. -/
def cFmt : Int → Option String :=
  fun t => if t = 0 then some "1970-01-01"
    else if t = 5 then some "1970-01-06" else none

/-- A concrete white repertoire tree with the single line e4 e5. -/
def cWhite : RepertoireNode :=
  .mk [("e4", .mk [("e5", .mk [] (some "Vienna") (some "VS - ch1") false)]
    (some "Vienna") (some "VS - ch1") true)] none none false

/-- The mirror black tree of `cWhite`. -/
def cBlack : RepertoireNode :=
  .mk [("e4", .mk [("e5", .mk [] (some "Vienna") (some "VS - ch1") true)]
    (some "Vienna") (some "VS - ch1") false)] none none false

/-- A concrete repertoire with the single prepared line e4 e5. -/
def cRep : Repertoire := ⟨cWhite, cBlack, []⟩

/-- A concrete one-chapter untitled study with the single move e4. -/
def cStudy : StudyRecord :=
  ⟨[⟨none, none, GameNode.mk [("e4", GameNode.mk [])]⟩], "O", "S"⟩

/-- A concrete builder holding `cStudy`. -/
def cBuilder : RepertoireBuilder := ⟨emptyRepertoire, [cStudy]⟩

/-!
Claim theorems.
-/

/-- Claim C1: the spec says `analyze_game` always returns a result or null
and never surfaces an exception — in particular, when the user's move is
absent from a node with zero children the call should return null.  The
code violates this: on the concrete repertoire `cRep` (prepared line
e4 e5) and the game e4 e5 Nf3 played by the user as White, the walk
reaches the leaf after e5 with the user to move, `correct_moves` is
empty, the `if correct_moves:` guard falls through to
`current_node.children[move_san]`, and an uncaught `KeyError` (the
`.error .keyError` value of the embedding) escapes to the caller. -/
theorem C1_keyerror_eval :
    analyze_game trivApi cFmt cRep ⟨["e4", "e5", "Nf3"], "u", "", none⟩ "u" =
      .error .keyError := rfl

/-- The deviation dict `analyze_game` returns for the game whose only move
is the empty string, against `cRep` (gate bypassed by falsy `""`). -/
def emptyMoveDict : DeviationDict :=
  { game_url := "", opening_name := "Unknown",
    result_type := "deviation", move_number := 1, user_color := "white",
    game_date := none, study_name := none, your_move := some "",
    correct_move := some "e4", opponent_move := none, fen := some "fen0",
    variation_count := some 1,
    analysis_url := some "https://lichess.org/analysis/fen0" }

/-- Claim C4 counterexample: the claim says every game with a non-empty
move list whose first move is not a child of the root yields null.  For
the game whose first move is the empty string `""` — not a child of the
root — the truthiness test `if first_move and ...` skips the gate and the
walk reports a deviation instead of returning null. -/
theorem C4_counterexample :
    ([""] : List String) ≠ [] ∧
    (lookupAL cRep.white_tree.children "").isNone = true ∧
    analyze_game trivApi cFmt cRep ⟨[""], "u", "", none⟩ "u" =
      .ok (some emptyMoveDict) :=
  ⟨by simp, rfl, rfl⟩

/-- Claim C4 (amended): for every game with a non-empty move list whose
first move is a *non-empty* string that is not a key of the selected
tree root's children, `analyze_game` returns null regardless of the
remaining moves. -/
theorem C4_prefix_gate {B : Type} (api : BoardApi B)
    (fmt : Int → Option String) (rep : Repertoire) (g : Game) (u : String)
    (m : String) (rest : List String) (hm : g.moves = m :: rest)
    (hne : m ≠ "")
    (hl : lookupAL (rep.get_tree (pyLower g.white == pyLower u)).children m =
      none) :
    analyze_game api fmt rep g u = .ok none := by
  rw [analyze_game_moves_cons api fmt rep g u m rest hm]
  have hcond : (m != "" && (lookupAL (rep.get_tree
      (pyLower g.white == pyLower u)).children m).isNone) = true := by
    rw [hl]
    simp [hne]
  rw [if_pos hcond]

/-- Witness for C4: the single-move game d4 against the e4-repertoire
`cRep` satisfies the gate hypotheses and yields null. -/
theorem C4_witness :
    (["d4"] : List String) = "d4" :: [] ∧ ("d4" : String) ≠ "" ∧
    lookupAL (cRep.get_tree (pyLower "u" == pyLower "u")).children "d4" =
      none ∧
    analyze_game trivApi cFmt cRep ⟨["d4"], "u", "", none⟩ "u" = .ok none :=
  ⟨rfl, by decide, rfl,
    C4_prefix_gate trivApi cFmt cRep ⟨["d4"], "u", "", none⟩ "u" "d4" []
      rfl (by decide) rfl⟩

/-- The opponent-left-book dict for the game e4 c5 with epoch date 0
against `cRep`: the valid timestamp 0 is falsy in Python, so the date is
dropped. -/
def date0Dict : DeviationDict :=
  { game_url := "g1", opening_name := "Vienna",
    result_type := "opponent_left_book", move_number := 1,
    user_color := "white", game_date := none,
    study_name := some "VS - ch1", your_move := none, correct_move := none,
    opponent_move := some "c5", fen := some "fen0", variation_count := none,
    analysis_url := some "https://lichess.org/analysis/fen0" }

/-- Claim C9 counterexample: the claim says a result for a game carrying a
valid epoch timestamp renders it as the `YYYY-MM-DD` date.  Epoch `0` is a
valid timestamp (the formatter renders it as 1970-01-01), a result is
produced, and yet its `game_date` is null, because `if game.get("date"):`
treats the number `0` as falsy. -/
theorem C9_counterexample :
    cFmt 0 = some "1970-01-01" ∧
    analyze_game trivApi cFmt cRep ⟨["e4", "c5"], "u", "g1", some 0⟩ "u" =
      .ok (some date0Dict) :=
  ⟨rfl, rfl⟩

/-- Claim C9 (amended): whenever `analyze_game` produces a result, its
`game_date` equals `format_game_date` of the game's timestamp: a present
*non-zero* timestamp that converts successfully is rendered; a missing
timestamp, the falsy timestamp `0`, and a failing conversion all yield a
null date; the date handling never raises. -/
theorem C9_game_date {B : Type} (api : BoardApi B)
    (fmt : Int → Option String) (rep : Repertoire) (g : Game) (u : String)
    (d : DeviationDict) (h : analyze_game api fmt rep g u = .ok (some d)) :
    d.game_date = format_game_date fmt g.date := by
  cases hm : g.moves with
  | nil =>
      rw [analyze_game_moves_nil api fmt rep g u hm] at h
      simp at h
  | cons m rest =>
      rw [analyze_game_moves_cons api fmt rep g u m rest hm] at h
      split at h
      · simp at h
      · exact walk_moves_game_date api fmt _ g.url g.date (m :: rest) _ _ 0 d h

/-- The opponent-left-book dict for the game e4 c5 with epoch date 5
against `cRep`: the nonzero timestamp is rendered by the formatter. -/
def date5Dict : DeviationDict :=
  { game_url := "g1", opening_name := "Vienna",
    result_type := "opponent_left_book", move_number := 1,
    user_color := "white", game_date := some "1970-01-06",
    study_name := some "VS - ch1", your_move := none, correct_move := none,
    opponent_move := some "c5", fen := some "fen0", variation_count := none,
    analysis_url := some "https://lichess.org/analysis/fen0" }

/-- Witness for C9: the game e4 c5 with the valid nonzero epoch date 5
yields a result dated by the formatter. -/
theorem C9_witness :
    analyze_game trivApi cFmt cRep ⟨["e4", "c5"], "u", "g1", some 5⟩ "u" =
      .ok (some date5Dict) ∧
    date5Dict.game_date = format_game_date cFmt (some 5) :=
  ⟨rfl, C9_game_date trivApi cFmt cRep ⟨["e4", "c5"], "u", "g1", some 5⟩ "u"
    _ rfl⟩

/-- Claim C10: `add_study` with the study name omitted (`None`) is the
same as passing the opening name as the study name — `study_name or
opening_name` — so the opening label flows into every node and index
entry of that study as its study-label input; in particular the whole
build agrees. -/
theorem C10_default_study_name (b : RepertoireBuilder) (pgn : List Chapter)
    (op : String) :
    add_study b pgn op none = add_study b pgn op (some op) ∧
    ∀ (B : Type) (api : BoardApi B),
      build api (add_study b pgn op none) =
        build api (add_study b pgn op (some op)) := by
  have h : add_study b pgn op none = add_study b pgn op (some op) := by
    unfold add_study pyOrStr
    by_cases hop : op = "" <;> simp [hop]
  exact ⟨h, fun B api => by rw [h]⟩

/-- Claim C2 counterexample: the claim says a chapter with no title of
its own stores the study label unchanged.  On the untitled chapter the
code still composes `f"{study_name} - {chapter_name}"` with
`chapter_name` having fallen back to the study name, so study `"S"`
stores `"S - S"`, not `"S"`. -/
theorem C2_counterexample :
    chapterLabel "S" ⟨none, none, GameNode.mk []⟩ = "S - S" ∧
    ("S - S" : String) ≠ "S" :=
  ⟨rfl, by decide⟩

/-- Claim C2 (amended): the stored study label of a processed chapter is
always the composition `study_name ++ " - " ++ chapter_name`.  When the
chapter carries a title containing a `:` separator, `chapter_name` is
the stripped text after the separator, as claimed; but when the chapter
has no title at all (both headers absent or empty), `chapter_name` falls
back to the study name, so the stored label is `study_name ++ " - " ++
study_name` rather than the study label unchanged. -/
theorem C2_stored_label (sn : String) (ch : Chapter) :
    (∀ t, ch.event = some t → t ≠ "" → containsChar t ':' = true →
      chapterLabel sn ch = sn ++ " - " ++ pyStrip (afterFirst t ':')) ∧
    ((ch.event = none ∨ ch.event = some "") →
      (ch.site = none ∨ ch.site = some "") →
      containsChar sn ':' = false →
      chapterLabel sn ch = sn ++ " - " ++ sn) := by
  constructor
  · intro t he hne hc
    simp [chapterLabel, pyOrStr, he, hne, hc]
  · intro he hs hc
    rcases he with he | he <;> rcases hs with hs | hs <;>
      simp [chapterLabel, pyOrStr, he, hs, hc]

/-- Witness for C2: a chapter titled "Vienna: Accepted" in study "Vienna"
stores "Vienna - Accepted"; the untitled chapter in study "S" stores
"S - S". -/
theorem C2_witness :
    chapterLabel "Vienna" ⟨some "Vienna: Accepted", none, GameNode.mk []⟩ =
      "Vienna" ++ " - " ++ pyStrip (afterFirst "Vienna: Accepted" ':') ∧
    chapterLabel "S" ⟨none, none, GameNode.mk []⟩ = "S" ++ " - " ++ "S" :=
  ⟨(C2_stored_label "Vienna" ⟨some "Vienna: Accepted", none, GameNode.mk []⟩).1
      "Vienna: Accepted" rfl (by decide) (by decide),
    (C2_stored_label "S" ⟨none, none, GameNode.mk []⟩).2
      (Or.inl rfl) (Or.inl rfl) (by decide)⟩

/-- Claim C3 counterexample: the claim says the `is_your_turn` flags of
the two trees are complementary at *every* pair of corresponding nodes.
At the pair of roots both flags are `false` (the dataclass default, never
written by `_process_node`), hence not complementary, even for a builder
whose single study does populate both trees. -/
theorem C3_counterexample :
    (build trivApi cBuilder).2.white_tree.is_your_turn = false ∧
    (build trivApi cBuilder).2.black_tree.is_your_turn = false := by
  constructor
  · rw [build_snd]
    show (addSeq true emptyNode (jobsOf cBuilder.studies)).is_your_turn =
      false
    exact (addSeq_root_fields true emptyNode (jobsOf cBuilder.studies)).2.2
  · rw [build_snd]
    show (addSeq false emptyNode (jobsOf cBuilder.studies)).is_your_turn =
      false
    exact (addSeq_root_fields false emptyNode (jobsOf cBuilder.studies)).2.2

/-- Claim C3 (amended): for a fresh builder (empty starting repertoire)
over well-formed studies, after `build()` the white and the black tree
contain exactly the same move paths with the same ordered children keys
at every corresponding node; at every corresponding *non-root* node the
`is_your_turn` flags are complementary; but at the pair of roots both
flags are `false` (not complementary). -/
theorem C3_tree_symmetry {B : Type} (api : BoardApi B)
    (b : RepertoireBuilder) (hrep : b.repertoire = emptyRepertoire)
    (hwf : wfStudies b.studies = true) :
    (∀ q, memT (build api b).2.white_tree q =
      memT (build api b).2.black_tree q) ∧
    (∀ q, keysAt (build api b).2.white_tree q =
      keysAt (build api b).2.black_tree q) ∧
    (∀ q, q ≠ [] → memT (build api b).2.white_tree q = true →
      flagAt (build api b).2.white_tree q =
        !(flagAt (build api b).2.black_tree q)) ∧
    (build api b).2.white_tree.is_your_turn = false ∧
    (build api b).2.black_tree.is_your_turn = false := by
  have hw : wfJobs (jobsOf b.studies) = true := wfJobs_jobsOf b.studies hwf
  have hwte : (build api b).2.white_tree =
      addSeq true emptyNode (jobsOf b.studies) := by
    rw [build_snd, hrep]
    rfl
  have hbte : (build api b).2.black_tree =
      addSeq false emptyNode (jobsOf b.studies) := by
    rw [build_snd, hrep]
    rfl
  refine ⟨?_, ?_, ?_, ?_, ?_⟩
  · intro q
    rw [hwte, hbte, memT_addSeq (jobsOf b.studies) hw true emptyNode q,
      memT_addSeq (jobsOf b.studies) hw false emptyNode q]
  · intro q
    rw [hwte, hbte, keysAt_addSeq (jobsOf b.studies) hw true emptyNode q,
      keysAt_addSeq (jobsOf b.studies) hw false emptyNode q]
  · intro q hq hm
    cases q with
    | nil => exact absurd rfl hq
    | cons x q' =>
        rw [hwte, memT_addSeq (jobsOf b.studies) hw true emptyNode (x :: q'),
          memT_empty_cons] at hm
        simp only [Bool.false_or] at hm
        rw [hwte, hbte,
          flagAt_addSeq (jobsOf b.studies) hw true emptyNode (x :: q'),
          flagAt_addSeq (jobsOf b.studies) hw false emptyNode (x :: q'),
          memT_empty_cons, hm]
        simp only [Bool.false_eq_true, if_false, if_true]
        exact newFlag_compl true (x :: q')
  · rw [hwte]
    exact (addSeq_root_fields true emptyNode (jobsOf b.studies)).2.2
  · rw [hbte]
    exact (addSeq_root_fields false emptyNode (jobsOf b.studies)).2.2

/-- Witness for C3: on the one-study builder `cBuilder` the path e4 is in
the built white tree, and its flag there is the complement of its flag in
the built black tree. -/
theorem C3_witness :
    cBuilder.repertoire = emptyRepertoire ∧
    wfStudies cBuilder.studies = true ∧
    (["e4"] : List String) ≠ [] ∧
    memT (build trivApi cBuilder).2.white_tree ["e4"] = true ∧
    flagAt (build trivApi cBuilder).2.white_tree ["e4"] =
      !(flagAt (build trivApi cBuilder).2.black_tree ["e4"]) := by
  have hwf : wfStudies cBuilder.studies = true := by
    simp [wfStudies, cBuilder, cStudy, wfG, wfGVars, nodupB]
  have hw : wfJobs (jobsOf cBuilder.studies) = true :=
    wfJobs_jobsOf cBuilder.studies hwf
  have hmem : memT (build trivApi cBuilder).2.white_tree ["e4"] = true := by
    rw [build_snd]
    show memT (addSeq true emptyNode (jobsOf cBuilder.studies)) ["e4"] = true
    rw [memT_addSeq (jobsOf cBuilder.studies) hw true emptyNode ["e4"]]
    rfl
  exact ⟨rfl, hwf, by simp, hmem,
    (C3_tree_symmetry trivApi cBuilder rfl hwf).2.2.1 ["e4"] (by simp) hmem⟩

/-- The deviation dict `analyze_game` returns for the game e4 c5 foo
played as Black against `cRep`: the user deviation at c5, pinned to the
first divergence. -/
def c5devDict : DeviationDict :=
  { game_url := "", opening_name := "Vienna",
    result_type := "deviation", move_number := 1, user_color := "black",
    game_date := none, study_name := some "VS - ch1",
    your_move := some "c5", correct_move := some "e5",
    opponent_move := none, fen := some "fen0", variation_count := some 1,
    analysis_url := some "https://lichess.org/analysis/fen0" }

/-- The 1-based index of the first divergence of a move list against the
tree, along the walk `analyze_game` performs: the first move missing from
the successive nodes' children, provided every earlier move was found and
replayed successfully on the board (`none` when the game stays in book or
a replay fails first). -/
def firstDiv {B : Type} (api : BoardApi B) :
    RepertoireNode → B → List String → Option Nat
  | _, _, [] => none
  | node, board, m :: ms =>
      match lookupAL node.children m with
      | none => some 1
      | some child =>
          match api.pushSan board m with
          | none => none
          | some b' => (firstDiv api child b' ms).map (· + 1)

/-- A produced walk result is pinned to the prefix ending at the first
divergence: the prefix length is exactly `firstDiv`, and every
continuation of that prefix walks to the very same result. -/
theorem walk_moves_first_div {B : Type} (api : BoardApi B)
    (fmt : Int → Option String) (uw : Bool) (url : String)
    (date : Option Int) :
    ∀ (ms : List String) (node : RepertoireNode) (board : B) (i : Nat)
      (r : DeviationDict),
      walk_moves api fmt uw url date node board i ms = .ok (some r) →
      ∃ j, 1 ≤ j ∧ j ≤ ms.length ∧
        firstDiv api node board ms = some j ∧
        ∀ rest, walk_moves api fmt uw url date node board i
          (ms.take j ++ rest) = .ok (some r) := by
  intro ms
  induction ms with
  | nil =>
      intro node board i r h
      rw [walk_moves_nil] at h
      simp at h
  | cons m ms ih =>
      intro node board i r h
      cases hl : lookupAL node.children m with
      | none =>
          refine ⟨1, le_refl 1, by simp, ?_, ?_⟩
          · simp [firstDiv, hl]
          · intro rest
            exact (walk_moves_divergence_tail_irrelevant api fmt uw url date
              node board i m rest ms hl).trans h
      | some child =>
          cases hp : api.pushSan board m with
          | none =>
              rw [walk_moves_step_push_fail api fmt uw url date node board i
                m ms child hl hp] at h
              simp at h
          | some b' =>
              rw [walk_moves_step_in_book api fmt uw url date node board i m
                ms child b' hl hp] at h
              obtain ⟨j, hj1, hj2, hfd, hj3⟩ := ih child b' (i + 1) r h
              refine ⟨j + 1, by omega, ?_, ?_, ?_⟩
              · simp only [List.length_cons]
                omega
              · simp [firstDiv, hl, hp, hfd]
              · intro rest
                show walk_moves api fmt uw url date node board i
                  (m :: (ms.take j ++ rest)) = .ok (some r)
                rw [walk_moves_step_in_book api fmt uw url date node board i
                  m (ms.take j ++ rest) child b' hl hp]
                exact hj3 rest

/-- Claim C5: whenever `analyze_game` produces a result, the result is
determined by the game's moves up to and including the first divergence:
the prefix length `j` is exactly the index `firstDiv` of the first move
the walk fails to find in the current node's children (so every earlier
move was in book — no divergence precedes it, and `j` is uniquely
determined); every continuation of that prefix produces the very same
result, and any game agreeing with the game on that prefix (same player,
url and date) produces the very same result — changing moves after the
first divergence never changes it. -/
theorem C5_first_divergence {B : Type} (api : BoardApi B)
    (fmt : Int → Option String) (rep : Repertoire) (g : Game) (u : String)
    (r : DeviationDict)
    (h : analyze_game api fmt rep g u = .ok (some r)) :
    ∃ j, 1 ≤ j ∧ j ≤ g.moves.length ∧
      firstDiv api (rep.get_tree (pyLower g.white == pyLower u)) api.init
        g.moves = some j ∧
      (∀ rest, analyze_game api fmt rep
        ⟨g.moves.take j ++ rest, g.white, g.url, g.date⟩ u =
        .ok (some r)) ∧
      (∀ g2 : Game, g2.white = g.white → g2.url = g.url →
        g2.date = g.date → g2.moves.take j = g.moves.take j →
        analyze_game api fmt rep g2 u = .ok (some r)) := by
  cases hm : g.moves with
  | nil =>
      rw [analyze_game_moves_nil api fmt rep g u hm] at h
      simp at h
  | cons m ms =>
      rw [analyze_game_moves_cons api fmt rep g u m ms hm] at h
      by_cases hgate : (m != "" && (lookupAL (rep.get_tree
          (pyLower g.white == pyLower u)).children m).isNone) = true
      · rw [if_pos hgate] at h
        simp at h
      · rw [if_neg hgate] at h
        obtain ⟨j, hj1, hj2, hfd, hj3⟩ := walk_moves_first_div api fmt
          (pyLower g.white == pyLower u) g.url g.date (m :: ms)
          (rep.get_tree (pyLower g.white == pyLower u)) api.init 0 r h
        have hrest : ∀ rest, analyze_game api fmt rep
            ⟨(m :: ms).take j ++ rest, g.white, g.url, g.date⟩ u =
            .ok (some r) := by
          intro rest
          cases j with
          | zero => exact absurd hj1 (by decide)
          | succ j' =>
              have hmoves : (⟨(m :: ms).take (j' + 1) ++ rest, g.white,
                  g.url, g.date⟩ : Game).moves =
                  m :: (ms.take j' ++ rest) := by
                show (m :: ms).take (j' + 1) ++ rest =
                  m :: (ms.take j' ++ rest)
                rw [List.take_succ_cons, List.cons_append]
              rw [analyze_game_moves_cons api fmt rep
                ⟨(m :: ms).take (j' + 1) ++ rest, g.white, g.url, g.date⟩
                u m (ms.take j' ++ rest) hmoves]
              show (if (m != "" && (lookupAL (rep.get_tree
                    (pyLower g.white == pyLower u)).children m).isNone)
                  then Except.ok none
                  else walk_moves api fmt (pyLower g.white == pyLower u)
                    g.url g.date
                    (rep.get_tree (pyLower g.white == pyLower u)) api.init
                    0 (m :: (ms.take j' ++ rest))) = Except.ok (some r)
              rw [if_neg hgate]
              exact hj3 rest
        refine ⟨j, hj1, hj2, hfd, hrest, ?_⟩
        intro g2 hw hu hd hp
        have hmv : g2.moves = (m :: ms).take j ++ g2.moves.drop j := by
          rw [← hp, List.take_append_drop]
        have h2 := hrest (g2.moves.drop j)
        rw [← hmv] at h2
        rw [← hw, ← hu, ← hd] at h2
        exact h2

/-- Witness for C5: the game e4 c5 foo played as Black against `cRep`
deviates at c5 — `firstDiv` pins the prefix to the first divergence — and
the result is unchanged by any continuation of that prefix or by any game
agreeing on it. -/
theorem C5_witness :
    analyze_game trivApi cFmt cRep ⟨["e4", "c5", "foo"], "v", "", none⟩ "u" =
      .ok (some c5devDict) ∧
    ∃ j, 1 ≤ j ∧ j ≤ (["e4", "c5", "foo"] : List String).length ∧
      firstDiv trivApi (cRep.get_tree (pyLower "v" == pyLower "u"))
        trivApi.init ["e4", "c5", "foo"] = some j ∧
      (∀ rest, analyze_game trivApi cFmt cRep
        ⟨(["e4", "c5", "foo"] : List String).take j ++ rest, "v", "",
          none⟩ "u" = .ok (some c5devDict)) ∧
      (∀ g2 : Game, g2.white = "v" → g2.url = "" → g2.date = none →
        g2.moves.take j = (["e4", "c5", "foo"] : List String).take j →
        analyze_game trivApi cFmt cRep g2 "u" = .ok (some c5devDict)) :=
  ⟨rfl, C5_first_divergence trivApi cFmt cRep
    ⟨["e4", "c5", "foo"], "v", "", none⟩ "u" c5devDict rfl⟩

/-- Claim C6: at a user deviation against a node with exactly one child,
`correct_move` is that child's move notation verbatim; against a node
with seven children, `correct_move` is the summary string
"Multiple variations (1, 2, 3, 4, 5...)" while `variation_count` is the
true child count 7. -/
theorem C6_correct_move_formatting {B : Type} (api : BoardApi B)
    (fmt : Int → Option String) (uw : Bool) (url : String)
    (date : Option Int) (node : RepertoireNode) (board : B) (i : Nat)
    (m : String) (ms : List String)
    (hl : lookupAL node.children m = none)
    (hy : (decide (i % 2 = 0) && uw || !decide (i % 2 = 0) && !uw) = true) :
    (∀ c, node.children.map Prod.fst = [c] →
      ∃ d, walk_moves api fmt uw url date node board i (m :: ms) =
          .ok (some d) ∧
        d.result_type = "deviation" ∧ d.correct_move = some c ∧
        d.variation_count = some 1) ∧
    (∀ c1 c2 c3 c4 c5 c6 c7,
      node.children.map Prod.fst = [c1, c2, c3, c4, c5, c6, c7] →
      ∃ d, walk_moves api fmt uw url date node board i (m :: ms) =
          .ok (some d) ∧
        d.result_type = "deviation" ∧
        d.correct_move = some "Multiple variations (1, 2, 3, 4, 5...)" ∧
        d.variation_count = some 7) := by
  constructor
  · intro c hkeys
    exact ⟨_, walk_moves_deviation api fmt uw url date node board i m ms hl
      hy c [] hkeys, rfl, rfl, rfl⟩
  · intro c1 c2 c3 c4 c5 c6 c7 hkeys
    exact ⟨_, walk_moves_deviation api fmt uw url date node board i m ms hl
      hy c1 [c2, c3, c4, c5, c6, c7] hkeys, rfl, rfl, rfl⟩

/-- A node with exactly one child, as reached after e4 in `cRep`. -/
def c1Node : RepertoireNode := .mk [("e5", emptyNode)] none none false

/-- A node with seven children. -/
def c7Node : RepertoireNode :=
  .mk [("a", emptyNode), ("b", emptyNode), ("c", emptyNode),
    ("d", emptyNode), ("e", emptyNode), ("f", emptyNode), ("g", emptyNode)]
    none none false

/-- Witness for C6: a Black-user deviation at the one-child node shows
the single option verbatim; a White-user deviation at the seven-child
node shows the capped summary with the true count 7. -/
theorem C6_witness :
    lookupAL c1Node.children "c5" = none ∧
    (decide (1 % 2 = 0) && false || !decide (1 % 2 = 0) && !false) = true ∧
    c1Node.children.map Prod.fst = ["e5"] ∧
    (∃ d, walk_moves trivApi cFmt false "" none c1Node [] 1 ["c5"] =
        .ok (some d) ∧
      d.result_type = "deviation" ∧ d.correct_move = some "e5" ∧
      d.variation_count = some 1) ∧
    lookupAL c7Node.children "z" = none ∧
    (decide (0 % 2 = 0) && true || !decide (0 % 2 = 0) && !true) = true ∧
    c7Node.children.map Prod.fst = ["a", "b", "c", "d", "e", "f", "g"] ∧
    (∃ d, walk_moves trivApi cFmt true "" none c7Node [] 0 ["z"] =
        .ok (some d) ∧
      d.result_type = "deviation" ∧
      d.correct_move = some "Multiple variations (1, 2, 3, 4, 5...)" ∧
      d.variation_count = some 7) :=
  ⟨rfl, by decide, rfl,
    (C6_correct_move_formatting trivApi cFmt false "" none c1Node [] 1
      "c5" [] rfl (by decide)).1 "e5" rfl,
    rfl, by decide, rfl,
    (C6_correct_move_formatting trivApi cFmt true "" none c7Node [] 0
      "z" [] rfl (by decide)).2 "a" "b" "c" "d" "e" "f" "g" rfl⟩

/-- Claim C7: when the builder's queue ends with a single-chapter study
`s`, after `build()` every tree node on a move path occurring in that
chapter carries `s`'s opening label and derived study label — the labels
of the study added last win — while every path and every child key the
earlier studies had placed in the tree is still present: revisiting an
existing child only relabels it, never replaces its subtree. -/
theorem C7_last_write_wins {B : Type} (api : BoardApi B)
    (b : RepertoireBuilder) (A : List StudyRecord) (s : StudyRecord)
    (ch : Chapter) (hs : b.studies = A ++ [s]) (hch : s.chapters = [ch])
    (hwf : wfJobs (jobsOf b.studies) = true)
    (q : List String) (hq : q ≠ []) (hmem : memG ch.root q = true) :
    labelAt (build api b).2.white_tree q =
      (some s.opening_name, some (chapterLabel s.study_name ch)) ∧
    labelAt (build api b).2.black_tree q =
      (some s.opening_name, some (chapterLabel s.study_name ch)) ∧
    (∀ p, memT (addSeq true b.repertoire.white_tree (jobsOf A)) p = true →
      memT (build api b).2.white_tree p = true) ∧
    (∀ p k, k ∈ keysAt (addSeq true b.repertoire.white_tree (jobsOf A)) p →
      k ∈ keysAt (build api b).2.white_tree p) := by
  have hjs : jobsOf [s] =
      [(s.opening_name, chapterLabel s.study_name ch, ch.root)] := by
    simp [jobsOf, studyJobs, chapterJobs, hch]
  have hsplit : jobsOf b.studies = jobsOf A ++
      [(s.opening_name, chapterLabel s.study_name ch, ch.root)] := by
    rw [hs, jobsOf_append, hjs]
  have hwA : wfJobs (jobsOf A) = true ∧
      wfJobs [(s.opening_name, chapterLabel s.study_name ch, ch.root)] =
        true := by
    have h0 := hwf
    rw [hsplit, wfJobs_append, Bool.and_eq_true] at h0
    exact h0
  have hwte0 : (build api b).2.white_tree =
      addSeq true b.repertoire.white_tree (jobsOf b.studies) := by
    rw [build_snd]
  have hbte0 : (build api b).2.black_tree =
      addSeq false b.repertoire.black_tree (jobsOf b.studies) := by
    rw [build_snd]
  have hwte : (build api b).2.white_tree =
      addSeq true (addSeq true b.repertoire.white_tree (jobsOf A))
        [(s.opening_name, chapterLabel s.study_name ch, ch.root)] := by
    rw [hwte0, hsplit, addSeq_append]
  refine ⟨?_, ?_, ?_, ?_⟩
  · rw [hwte0, labelAt_addSeq (jobsOf b.studies) hwf true
      b.repertoire.white_tree q hq, hsplit, lastLab_append_single]
    simp [hmem]
  · rw [hbte0, labelAt_addSeq (jobsOf b.studies) hwf false
      b.repertoire.black_tree q hq, hsplit, lastLab_append_single]
    simp [hmem]
  · intro p hp
    rw [hwte, memT_addSeq
      [(s.opening_name, chapterLabel s.study_name ch, ch.root)] hwA.2 true
      (addSeq true b.repertoire.white_tree (jobsOf A)) p, hp]
    rfl
  · intro p k hk
    rw [hwte, keysAt_addSeq
      [(s.opening_name, chapterLabel s.study_name ch, ch.root)] hwA.2 true
      (addSeq true b.repertoire.white_tree (jobsOf A)) p]
    exact (mem_mergeKeys _ _ k).mpr (Or.inl hk)

/-- The single untitled chapter of the second concrete study. -/
def cChapter2 : Chapter := ⟨none, none, GameNode.mk [("e4", GameNode.mk [])]⟩

/-- A second concrete study sharing the move path e4 with `cStudy` but
carrying different labels. -/
def cStudy2 : StudyRecord := ⟨[cChapter2], "O2", "S2"⟩

/-- A concrete builder holding `cStudy` and then `cStudy2`. -/
def cB2 : RepertoireBuilder := ⟨emptyRepertoire, [cStudy, cStudy2]⟩

/-- Witness for C7: with `cStudy` then `cStudy2` queued, the shared path
e4 of the built white tree carries `cStudy2`'s labels. -/
theorem C7_witness :
    cB2.studies = [cStudy] ++ [cStudy2] ∧
    cStudy2.chapters = [cChapter2] ∧
    wfJobs (jobsOf cB2.studies) = true ∧
    (["e4"] : List String) ≠ [] ∧
    memG cChapter2.root ["e4"] = true ∧
    labelAt (build trivApi cB2).2.white_tree ["e4"] =
      (some "O2", some "S2 - S2") := by
  have hwf : wfJobs (jobsOf cB2.studies) = true := by
    simp [wfJobs, jobsOf, studyJobs, chapterJobs, cB2, cStudy, cStudy2,
      cChapter2, wfG, wfGVars, nodupB]
  exact ⟨rfl, rfl, hwf, by simp, rfl,
    (C7_last_write_wins trivApi cB2 [cStudy] cStudy2 cChapter2 rfl rfl hwf
      ["e4"] (by simp) rfl).1⟩

/-- Claim C8: on a fresh builder (empty starting repertoire) with
well-formed queued studies, running `build()` a second time — the queue
is never cleared and the first build's repertoire is mutated in place —
reproduces exactly the same repertoire: the same two trees and the same
position index. -/
theorem C8_build_idempotent {B : Type} (api : BoardApi B)
    (b : RepertoireBuilder) (hrep : b.repertoire = emptyRepertoire)
    (hwf : wfStudies b.studies = true) :
    (build api (build api b).1).2 = (build api b).2 := by
  have hw : wfJobs (jobsOf b.studies) = true := wfJobs_jobsOf b.studies hwf
  have h1 : (build api b).2 =
      ⟨addSeq true emptyNode (jobsOf b.studies),
        addSeq false emptyNode (jobsOf b.studies),
        traverse_tree api (addSeq true emptyNode (jobsOf b.studies))
          api.init []⟩ := by
    rw [build_snd, hrep]
    rfl
  have h2 : (build api (build api b).1).2 =
      ⟨addSeq true (build api b).2.white_tree (jobsOf b.studies),
        addSeq false (build api b).2.black_tree (jobsOf b.studies),
        traverse_tree api
          (addSeq true (build api b).2.white_tree (jobsOf b.studies))
          api.init (build api b).2.position_index⟩ := by
    rw [build_snd api (build api b).1, build_fst api b]
  rw [h2, h1]
  rw [addSeq_idem (jobsOf b.studies) hw true emptyNode wfT_emptyNode,
    addSeq_idem (jobsOf b.studies) hw false emptyNode wfT_emptyNode]
  rw [traverse_eq_foldInsert api, traverse_eq_foldInsert api]
  rw [foldInsert_idem]
  rfl

/-- Witness for C8: on the concrete one-study builder `cBuilder`, the
second build reproduces the first build's repertoire. -/
theorem C8_witness :
    cBuilder.repertoire = emptyRepertoire ∧
    wfStudies cBuilder.studies = true ∧
    (build trivApi (build trivApi cBuilder).1).2 =
      (build trivApi cBuilder).2 := by
  have hwf : wfStudies cBuilder.studies = true := by
    simp [wfStudies, cBuilder, cStudy, wfG, wfGVars, nodupB]
  exact ⟨rfl, hwf, C8_build_idempotent trivApi cBuilder rfl hwf⟩
